import Mathlib

/-!
Shallow embedding of the matchengine core (`matchengine.py` together with the
type definitions of `matchengine_types.py`) and proofs about its specified
properties.

The embedding covers:

* the clause extractor `extract_match_clauses_from_trial` (worklist traversal
  of a trial document, suspension filter, level computation), including the
  in-place `setdefault` mutations of the traversed dictionaries and the
  `RuntimeError` a Python dict raises when it is resized during iteration;
* the match-tree builder `create_match_tree` and the path enumerator
  `get_match_paths`;
* the query translator `translate_match_path` and the id injection
  `add_ids_to_query`;
* the query executor `run_query` (clinical pass, genomic pass with join-field
  intersection, cache hydration, emission), run over a small model of the
  mongo document store.

Python dictionaries are modelled as insertion-ordered association lists,
ObjectIds and field values as a small inductive value type `JVal`, and
fallible Python code as `Except`/`Option` results.  The two traversals that
Python drives with an unbounded `deque` worklist take an explicit fuel
argument; all safety statements are proved for every fuel, and concrete runs
use an ample literal fuel.

The external module `match_criteria_transform` is not part of the repository
sources; the constants the core reads from it are modelled from the
specification (see `Transformer` below).
-/

namespace Matchengine

/-- JSON-like values appearing in trial curations, queries and documents.
`jdict` keeps Python's insertion order of keys. -/
inductive JVal where
  | s : String → JVal
  | n : Int → JVal
  | jdict : List (String × JVal) → JVal
  | jlist : List JVal → JVal

mutual

/-- Decidable equality of values (hand-written: `JVal` nests through
`List`). -/
def JVal.decEq : (a b : JVal) → Decidable (a = b)
  | .s x, .s y =>
    if h : x = y then .isTrue (by rw [h]) else .isFalse (by simp [h])
  | .n x, .n y =>
    if h : x = y then .isTrue (by rw [h]) else .isFalse (by simp [h])
  | .jdict xs, .jdict ys =>
    match JVal.decEqEntries xs ys with
    | .isTrue h => .isTrue (by rw [h])
    | .isFalse h => .isFalse (by simp [h])
  | .jlist xs, .jlist ys =>
    match JVal.decEqList xs ys with
    | .isTrue h => .isTrue (by rw [h])
    | .isFalse h => .isFalse (by simp [h])
  | .s _, .n _ => .isFalse (by simp)
  | .s _, .jdict _ => .isFalse (by simp)
  | .s _, .jlist _ => .isFalse (by simp)
  | .n _, .s _ => .isFalse (by simp)
  | .n _, .jdict _ => .isFalse (by simp)
  | .n _, .jlist _ => .isFalse (by simp)
  | .jdict _, .s _ => .isFalse (by simp)
  | .jdict _, .n _ => .isFalse (by simp)
  | .jdict _, .jlist _ => .isFalse (by simp)
  | .jlist _, .s _ => .isFalse (by simp)
  | .jlist _, .n _ => .isFalse (by simp)
  | .jlist _, .jdict _ => .isFalse (by simp)

/-- Decidable equality of dict entry lists. -/
def JVal.decEqEntries : (a b : List (String × JVal)) → Decidable (a = b)
  | [], [] => .isTrue rfl
  | [], _ :: _ => .isFalse (by simp)
  | _ :: _, [] => .isFalse (by simp)
  | (k1, v1) :: r1, (k2, v2) :: r2 =>
    if hk : k1 = k2 then
      match JVal.decEq v1 v2 with
      | .isTrue hv =>
        match JVal.decEqEntries r1 r2 with
        | .isTrue hr => .isTrue (by rw [hk, hv, hr])
        | .isFalse hr => .isFalse (by simp [hr])
      | .isFalse hv => .isFalse (by simp [hv])
    else .isFalse (by simp [hk])

/-- Decidable equality of value lists. -/
def JVal.decEqList : (a b : List JVal) → Decidable (a = b)
  | [], [] => .isTrue rfl
  | [], _ :: _ => .isFalse (by simp)
  | _ :: _, [] => .isFalse (by simp)
  | v1 :: r1, v2 :: r2 =>
    match JVal.decEq v1 v2 with
    | .isTrue hv =>
      match JVal.decEqList r1 r2 with
      | .isTrue hr => .isTrue (by rw [hv, hr])
      | .isFalse hr => .isFalse (by simp [hr])
    | .isFalse hv => .isFalse (by simp [hv])

end

instance : DecidableEq JVal := JVal.decEq

deriving instance DecidableEq for Except

/-- First-occurrence association lookup (Python `d[k]` / `k in d` on dicts). -/
def lookupA {κ α : Type} [DecidableEq κ] : List (κ × α) → κ → Option α
  | [], _ => none
  | (k, v) :: r, key => if k = key then some v else lookupA r key

/-- Membership test in an association list (`k in d`). -/
def hasKeyA {κ α : Type} [DecidableEq κ] (d : List (κ × α)) (k : κ) : Bool :=
  (lookupA d k).isSome

/-- Python `d[k] = v`: replace the value at an existing key in place, else
append the new key at the end. -/
def setA {κ α : Type} [DecidableEq κ] : List (κ × α) → κ → α → List (κ × α)
  | [], key, v => [(key, v)]
  | (k, w) :: r, key, v => if k = key then (k, v) :: r else (k, w) :: setA r key v

/-- Python `d.setdefault(k, v)`: return the stored value, the (possibly
extended) dict, and whether an insertion took place. -/
def setdefaultA {α : Type} (d : List (String × α)) (k : String) (v : α) :
    α × List (String × α) × Bool :=
  match lookupA d k with
  | some w => (w, d, false)
  | none => (v, d ++ [(k, v)], true)

/-- Python set semantics on a list: add an element unless already present. -/
def addUnique {α : Type} [DecidableEq α] (l : List α) (x : α) : List α :=
  if x ∈ l then l else l ++ [x]

/-- Deduplicate keeping first occurrences (a Python set comprehension,
with membership as the only observable). -/
def dedupKF {α : Type} [DecidableEq α] : List α → List α
  | [] => []
  | x :: r => if x ∈ r then x :: (dedupKF r).filter (· ≠ x) else x :: dedupKF r

/-- Turn an `Option` into an `Except`, the way a missing dict key raises. -/
def ofOption {ε α : Type} (e : ε) : Option α → Except ε α
  | some a => .ok a
  | none => .error e

/-- Effectful map over a list, stopping at the first error (the behaviour
of a Python loop whose body may raise). -/
def mapE {ε α β : Type} (f : α → Except ε β) : List α → Except ε (List β)
  | [] => .ok []
  | a :: l => do
    let b ← f a
    let bs ← mapE f l
    .ok (b :: bs)

/-- Python `str.lower()` (character-wise, kernel-reducible). -/
def pyLower (s : String) : String := ⟨s.data.map Char.toLower⟩

/-- Python `str.strip()`: drop whitespace from both ends. -/
def pyStrip (s : String) : String :=
  ⟨((s.data.dropWhile Char.isWhitespace).reverse.dropWhile Char.isWhitespace).reverse⟩

/-- Python `str.upper()`. -/
def pyUpper (s : String) : String := ⟨s.data.map Char.toUpper⟩

/-! ## Python runtime errors raised by the modelled code paths -/

/-- The Python exception kinds the embedded code can raise. -/
inductive PyErr where
  | typeError
  | runtimeError
  | attributeError
  | indexError
  | keyError
deriving DecidableEq

/-! ## Clause extraction (`extract_match_clauses_from_trial`)

The worklist holds `(path, parent_key, parent_value)` triples; `deque.pop`
takes from the right, which we model with a cons-list whose head is the top
of the stack.  A path element is a dict key (string) or a list index (int). -/

/-- An element of a `ParentPath`: a dict key or a list index. -/
inductive PElem where
  | ks : String → PElem
  | ki : Nat → PElem
deriving DecidableEq

/-- The four values `matchengine.py` line 196 passes to the `MatchClauseData`
constructor (`inner_value, parent_path, level, parent_value`), under the
field names of the four-parameter signature the call site assumes.  (The
dataclass actually declared in `matchengine_types.py` has six required
fields; see `MatchClauseData_fields` below.) -/
structure YieldedMatchClause where
  match_clause : JVal
  parent_path : List PElem
  match_clause_level : String
  match_clause_additional_attributes : List (String × JVal)
deriving DecidableEq

/-- How a run of the extraction generator ends: the worklist drained, a
Python exception propagated, or the modelling fuel ran out. -/
inductive ExtractEnd where
  | done
  | err : PyErr → ExtractEnd
  | fuelOut
deriving DecidableEq

/-- The level computation of `matchengine.py` line 194:
`[item for item in parent_path[::-1] if not isinstance(item, int)][0]`,
`none` modelling the `IndexError` of an all-integer path. -/
def levelOf (pp : List PElem) : Option String :=
  (pp.reverse.filterMap fun e => match e with
    | .ks k => some k
    | .ki _ => none).head?

/-- The arm/dose suspension test
`parent_value.setdefault(flag, 'n').lower().strip() == 'y'` on the owning
dict: returns (suspended?, mutated dict, whether a key was inserted); a
non-string flag value raises `AttributeError` on `.lower()`. -/
def suspFlagCheck (d : List (String × JVal)) (flag : String) :
    Except PyErr (Bool × List (String × JVal) × Bool) :=
  let r := setdefaultA d flag (.s "n")
  match r.1 with
  | .s str => .ok (pyStrip (pyLower str) = "y", r.2.1, r.2.2)
  | _ => .error .attributeError

/-- The per-arm list comprehension
`[arm.setdefault('arm_suspended', 'n').lower().strip() == 'y' for arm in arms]`
folded through `all`: mutates every arm dict that lacks the flag, raises
`AttributeError` at the first non-dict element or non-string flag. -/
def armsAllSuspended : List JVal → Except PyErr (Bool × List JVal)
  | [] => .ok (true, [])
  | a :: rest =>
    match a with
    | .jdict ad =>
      let r := setdefaultA ad "arm_suspended" (.s "n")
      match r.1 with
      | .s str => do
        let br ← armsAllSuspended rest
        .ok ((pyStrip (pyLower str) = "y") && br.1, .jdict r.2.1 :: br.2)
      | _ => .error .attributeError
    | _ => .error .attributeError

/-- The step-level suspension test: `parent_value.setdefault('arm',
list({'arm_suspended': 'y'}))` (note: `list` of a dict yields its keys, so
the inserted default is the one-element list `["arm_suspended"]`) followed by
`all` of the per-arm checks.  Iterating a non-list value either yields
strings/keys whose `.setdefault` raises `AttributeError`, or raises
`TypeError` for a non-iterable; an empty iterable makes `all` vacuously
true. -/
def stepSuspCheck (d : List (String × JVal)) :
    Except PyErr (Bool × List (String × JVal) × Bool) :=
  let r := setdefaultA d "arm" (.jlist [.s "arm_suspended"])
  match r.1 with
  | .jlist arms => do
    let br ← armsAllSuspended arms
    .ok (br.1, setA r.2.1 "arm" (.jlist br.2), r.2.2)
  | .jdict kvs => if kvs.isEmpty then .ok (true, r.2.1, r.2.2) else .error .attributeError
  | .s str => if str.isEmpty then .ok (true, r.2.1, r.2.2) else .error .attributeError
  | .n _ => .error .typeError

/-- Dispatch of the suspension filter on `path[-1]`.  When
`match_on_closed` is true the `not match_on_closed and ...` conjunction
short-circuits, so no `setdefault` runs and nothing is skipped. -/
def suspensionFilter (moc : Bool) (lastE : PElem) (d : List (String × JVal)) :
    Except PyErr (Bool × List (String × JVal) × Bool) :=
  if lastE = .ks "arm" then
    if moc then .ok (false, d, false) else suspFlagCheck d "arm_suspended"
  else if lastE = .ks "dose" then
    if moc then .ok (false, d, false) else suspFlagCheck d "level_suspended"
  else if lastE = .ks "step" then
    if moc then .ok (false, d, false) else stepSuspCheck d
  else .ok (false, d, false)

/-- One popped dict of the extraction worklist: iterate its entries in
insertion order.  A `match` entry runs the suspension filter and yields;
any other entry is recorded for pushing (its value is read from the final
dict, matching Python's by-reference push).  Inserting a key into the dict
being iterated makes the next step of the iteration raise `RuntimeError`
(dictionary changed size during iteration); the `mutated` flag carries
that state.  Returns (yields, keys to push, final dict, error). -/
def processEntries (moc : Bool) (path : List PElem) (pk : PElem) :
    List (String × JVal) → List (String × JVal) → Bool →
    List YieldedMatchClause × List String × List (String × JVal) × Option PyErr
  | [], cur, mutated =>
    ([], [], cur, if mutated then some .runtimeError else none)
  | (k, v) :: rest, cur, mutated =>
    if mutated then ([], [], cur, some .runtimeError)
    else if k = "match" then
      match path.getLast? with
      | none => ([], [], cur, some .indexError)
      | some lastE =>
        match suspensionFilter moc lastE cur with
        | .error e => ([], [], cur, some e)
        | .ok (susp, cur', ins) =>
          if susp then processEntries moc path pk rest cur' ins
          else
            match levelOf (path ++ [pk, .ks "match"]) with
            | none => ([], [], cur', some .indexError)
            | some lvl =>
              let r := processEntries moc path pk rest cur' ins
              (⟨v, path ++ [pk, .ks "match"], lvl, cur'⟩ :: r.1, r.2.1, r.2.2.1, r.2.2.2)
    else
      let r := processEntries moc path pk rest cur mutated
      (r.1, k :: r.2.1, r.2.2.1, r.2.2.2)

/-- The extraction worklist loop (`while process_q:` of
`extract_match_clauses_from_trial`).  The stack head is the most recently
appended triple.  Dict children are pushed with the path extended by the
parent key; list elements with their index; scalars are dropped. -/
def extractLoop (moc : Bool) :
    Nat → List (List PElem × PElem × JVal) → List YieldedMatchClause × ExtractEnd
  | _, [] => ([], .done)
  | 0, _ :: _ => ([], .fuelOut)
  | fuel + 1, (path, pk, v) :: stk =>
    match v with
    | .jdict entries =>
      let pr := processEntries moc path pk entries entries false
      match pr.2.2.2 with
      | some e => (pr.1, .err e)
      | none =>
        let pushes := pr.2.1.filterMap fun k =>
          (lookupA pr.2.2.1 k).map fun w => (path ++ [pk], PElem.ks k, w)
        let r := extractLoop moc fuel (pushes.reverse ++ stk)
        (pr.1 ++ r.1, r.2)
    | .jlist vs =>
      let pushes := vs.enum.map fun iw => (path ++ [pk], PElem.ki iw.1, iw.2)
      extractLoop moc fuel (pushes.reverse ++ stk)
    | _ => extractLoop moc fuel stk

/-- Model of `extract_match_clauses_from_trial`: seed the worklist with the trial's
top-level entries (skipping a top-level `match`, which the source leaves as
a TODO) and run the loop. -/
def extract_match_clauses_from_trial (moc : Bool) (fuel : Nat)
    (trial : List (String × JVal)) : List YieldedMatchClause × ExtractEnd :=
  extractLoop moc fuel
    (((trial.filter fun kv => kv.1 ≠ "match").map
      fun kv => (([] : List PElem), PElem.ks kv.1, kv.2)).reverse)

/-! ## Match tree construction (`create_match_tree`) -/

/-- A leaf criterion: one curation dict such as `{genomic: {...}}`. -/
abbrev Criterion := List (String × JVal)

/-- The `criteria_list` node attribute: the ordered leaf criteria attached
to one tree node. -/
abbrev CriteriaList := List Criterion

/-- A `MatchPath`: the `criteria_list`s collected along one root-to-leaf
walk, root first. -/
abbrev MatchPath := List CriteriaList

/-- One node of the match tree: its integer id, its unique parent edge (the
builder only ever adds the edge `(parent_id, node_id)` for a fresh
`node_id`), its `is_or` mark and its `criteria_list`. -/
structure TNode where
  nid : Nat
  parent : Option Nat
  is_or : Bool
  criteria_list : CriteriaList
deriving DecidableEq

/-- The match tree: its nodes in insertion order (the root, id 0, first). -/
structure MatchTree where
  nodes : List TNode
deriving DecidableEq

/-- Node lookup by id. -/
def MatchTree.node? (t : MatchTree) (nid : Nat) : Option TNode :=
  t.nodes.find? fun nd => nd.nid = nid

/-- How `create_match_tree` ends. -/
inductive BuildEnd where
  | done : MatchTree → BuildEnd
  | err : PyErr → BuildEnd
  | fuelOut
deriving DecidableEq

/-- Append one criterion to a node's `criteria_list` in place. -/
def appendCrit (ns : List TNode) (pid : Nat) (c : Criterion) : List TNode :=
  ns.map fun nd =>
    if nd.nid = pid then { nd with criteria_list := nd.criteria_list ++ [c] } else nd

/-- Python `for item in value` over the payload of an `and`/`or` key: a list
yields its elements, a dict yields its keys, an empty string yields nothing.
A nonempty string yields its characters, each of which raises
`AttributeError` as soon as it is popped and `.items()` is read on it,
before any other observable step, so it is modelled as the error directly; a
number raises `TypeError` at the loop head. -/
def iterItems : JVal → Except PyErr (List JVal)
  | .jlist vs => .ok vs
  | .jdict kvs => .ok (kvs.map fun kv => .s kv.1)
  | .s str => if str.isEmpty then .ok [] else .error .attributeError
  | .n _ => .error .typeError

/-- Process the entries of one popped `(parent_id, values)` item of the tree
builder worklist, in insertion order.  `orig` is the whole popped dict
(`values`), which a leaf entry under an OR parent attaches as the new child's
one-element `criteria_list`.  Returns the updated node store, the next free
node id and the items to push. -/
def processBuildEntries (pid : Nat) (pio : Bool) (orig : Criterion) :
    List (String × JVal) → List TNode → Nat →
    Except PyErr (List TNode × Nat × List (Nat × JVal))
  | [], ns, nid => .ok (ns, nid, [])
  | (label, value) :: rest, ns, nid =>
    if label = "and" then do
      let items ← iterItems value
      let (ns', nid', pushes) ← processBuildEntries pid pio orig rest ns nid
      .ok (ns', nid', items.map (fun it => (pid, it)) ++ pushes)
    else if label = "or" then do
      let items ← iterItems value
      let ns1 := ns ++ [⟨nid, some pid, true, []⟩]
      let (ns', nid', pushes) ← processBuildEntries pid pio orig rest ns1 (nid + 1)
      .ok (ns', nid', items.map (fun it => (nid, it)) ++ pushes)
    else if pio then do
      let ns1 := ns ++ [⟨nid, some pid, false, [orig]⟩]
      let (ns', nid', pushes) ← processBuildEntries pid pio orig rest ns1 (nid + 1)
      .ok (ns', nid', pushes)
    else do
      let ns1 := appendCrit ns pid [(label, value)]
      processBuildEntries pid pio orig rest ns1 nid

/-- The tree builder worklist loop (`while process_q:` of
`create_match_tree`).  Popping a non-dict raises `AttributeError` on
`.items()`. -/
def buildLoop : Nat → List (Nat × JVal) → List TNode → Nat → BuildEnd
  | _, [], ns, _ => .done ⟨ns⟩
  | 0, _ :: _, _, _ => .fuelOut
  | fuel + 1, (pid, v) :: stk, ns, nextId =>
    match v with
    | .jdict entries =>
      let pio := ((MatchTree.node? ⟨ns⟩ pid).map (·.is_or)).getD false
      match processBuildEntries pid pio entries entries ns nextId with
      | .error e => .err e
      | .ok (ns', nextId', pushes) => buildLoop fuel (pushes.reverse ++ stk) ns' nextId'
    | _ => .err .attributeError

/-- Model of `create_match_tree`: root node 0 with empty `criteria_list`, node
counter starting at 1, every clause item enqueued under the root. -/
def create_match_tree (fuel : Nat) (match_clause : List JVal) : BuildEnd :=
  buildLoop fuel ((match_clause.map fun it => ((0 : Nat), it)).reverse)
    [⟨0, none, false, []⟩] 1

/-! ## Path enumeration (`get_match_paths`) -/

/-- Out-degree of a node: the number of nodes whose parent edge points to
it. -/
def outDegree (t : MatchTree) (nid : Nat) : Nat :=
  (t.nodes.filter fun nd => nd.parent = some nid).length

/-- The unique root-to-node path (`nx.shortest_path(match_tree, 0, leaf)`),
obtained by following parent edges; the fuel `t.nodes.length` always
suffices because every parent was created before its child. -/
def parentChain (t : MatchTree) : Nat → Nat → List Nat
  | 0, nid => [nid]
  | fuel + 1, nid =>
    match t.node? nid with
    | some nd =>
      match nd.parent with
      | some p => parentChain t fuel p ++ [nid]
      | none => [nid]
    | none => [nid]

/-- Model of `get_match_paths`: for every leaf (out-degree 0, in node insertion
order) concatenate the `criteria_list`s along the root-to-leaf path. -/
def get_match_paths (t : MatchTree) : List MatchPath :=
  ((t.nodes.filter fun nd => outDegree t nd.nid = 0).map (·.nid)).map fun leaf =>
    let path := if leaf = 0 then [0] else parentChain t t.nodes.length leaf
    path.filterMap fun nid => (t.node? nid).map (·.criteria_list)

/-! ## Query translation (`translate_match_path`) and id injection
(`add_ids_to_query`)

The transformer context (`MatchCriteriaTransform`) comes from the external
`match_criteria_transform` module, which is not part of the repository
sources; its constants are modelled from the specification. -/

/-- A mongo query condition: a plain value or an `$in` list. -/
inductive MCond where
  | eq : JVal → MCond
  | isIn : List JVal → MCond
deriving DecidableEq

/-- One AND-fragment of a query: a dict of field conditions. -/
abbrev Frag := List (String × MCond)

/-- A `MultiCollectionQuery`: collection name to list of AND-fragments, in
first-touch insertion order (a `defaultdict(list)`). -/
abbrev MCQuery := List (String × List Frag)

instance : DecidableEq Frag := inferInstance

instance : DecidableEq MCQuery := inferInstance

/-- One `trial_key_mappings` entry: its `ignore` flag and the
`sample_value` handler name (both read through `setdefault`, so both have
the shown defaults when absent). -/
structure KeySetting where
  ignore : Bool
  sample_value : String
deriving DecidableEq

/-- The defaults `translate_match_path` installs with `setdefault`: an empty
settings dict, whose handler name defaults to `nomap`. -/
def defaultKeySetting : KeySetting := ⟨false, "nomap"⟩

/-- Modelled from the spec: the transformer context of the missing
`match_criteria_transform` module (spec sections 4.4 and 6) — the `CLINICAL`
collection tag, `primary_collection_unique_field`, the per-collection
`join_field` of `collection_mappings`, and the `trial_key_mappings`
dictionary. -/
structure Transformer where
  CLINICAL : String
  primary_collection_unique_field : String
  join_fields : List (String × String)
  trial_key_mappings : List (String × List (String × KeySetting))
deriving DecidableEq

/-- Modelled from the spec: the concrete configuration the engine loads —
clinical tag `"clinical"`, unique field `"_id"`, genomic join field
`"CLINICAL_ID"`, and no explicit key mappings (every key falls back to
`nomap`). -/
def theTransformer : Transformer :=
  ⟨"clinical", "_id", [("genomic", "CLINICAL_ID")], [("genomic", []), ("clinical", [])]⟩

/-- Modelled from the spec: the handler registry
`MatchCriteriaTransform.__dict__[name]`.  The default handler `nomap` is the
identity mapping, placing the trial value unchanged under the uppercased
key; a name missing from the registry raises `KeyError`. -/
def applySampleFunction (name : String) (sample_key : String) (trial_value : JVal) :
    Except PyErr Frag :=
  if name = "nomap" then .ok [(sample_key, .eq trial_value)] else .error .keyError

/-- The inner key loop of `translate_match_path`: fold every
`(trial_key, trial_value)` pair of one criterion body into `and_query`,
skipping ignored keys and merging each handler result with dict `update`
semantics. -/
def buildAndQuery (m : List (String × KeySetting)) :
    List (String × JVal) → Frag → Except PyErr Frag
  | [], acc => .ok acc
  | (tk, tv) :: rest, acc => do
    let settings := (lookupA m (pyUpper tk)).getD defaultKeySetting
    if settings.ignore then buildAndQuery m rest acc
    else do
      let fr ← applySampleFunction settings.sample_value (pyUpper tk) tv
      buildAndQuery m rest (fr.foldl (fun a kv => setA a kv.1 kv.2) acc)

/-- Append a fragment to `categories[k]` with `defaultdict(list)` semantics:
a first touch creates the key at the end. -/
def appendDD (q : MCQuery) (k : String) (fr : Frag) : MCQuery :=
  match lookupA q k with
  | some l => setA q k (l ++ [fr])
  | none => q ++ [(k, [fr])]

/-- The criteria loop of `translate_match_path` for one path node: each
criterion's `(genomic_or_clinical, values)` entries are translated and the
nonempty `and_query`s appended to `categories`.  An unmapped collection name
raises `KeyError` on `trial_key_mappings[genomic_or_clinical]`; a non-dict
criterion body raises `AttributeError` on `.items()`. -/
def translateNode (tr : Transformer) : CriteriaList → MCQuery → Except PyErr MCQuery
  | [], categories => .ok categories
  | crit :: rest, categories => do
    let categories' ← translateCriterion tr crit categories
    translateNode tr rest categories'
where
  translateCriterion (tr : Transformer) :
      List (String × JVal) → MCQuery → Except PyErr MCQuery
    | [], categories => .ok categories
    | (gorc, values) :: restEntries, categories => do
      let m ← ofOption PyErr.keyError (lookupA tr.trial_key_mappings gorc)
      match values with
      | .jdict kvs => do
        let and_query ← buildAndQuery m kvs []
        let categories' :=
          if and_query.isEmpty then categories else appendDD categories gorc and_query
        translateCriterion tr restEntries categories'
      | _ => .error .attributeError

/-- Model of `translate_match_path`: one `MultiCollectionQuery` per path node,
nodes whose `categories` stay empty being dropped.  (The
`match_clause_data` argument only feeds the handler's `parent_path`
argument, which the `nomap` handler ignores.) -/
def translate_match_path (tr : Transformer) (_parent_path : List PElem) :
    MatchPath → Except PyErr (List MCQuery)
  | [] => .ok []
  | node :: rest => do
    let categories ← translateNode tr node []
    let output ← translate_match_path tr _parent_path rest
    .ok (if categories.isEmpty then output else categories :: output)

/-- Model of `add_ids_to_query`: with a non-null id list, append
`{primary_collection_unique_field: {$in: ids}}` to the clinical list of
every query (the `defaultdict` creates the clinical entry when absent) and
set the genomic join field to `{$in: ids}` inside every genomic fragment
(`query.setdefault('genomic', list())` creates an empty genomic entry when
absent).  A null id list leaves every query untouched. -/
def add_ids_to_query (tr : Transformer) (queries : List MCQuery)
    (id_list : Option (List JVal)) : Except PyErr (List MCQuery) :=
  mapE (fun q =>
    match id_list with
    | none => .ok q
    | some ids => do
      let q1 := appendDD q tr.CLINICAL [(tr.primary_collection_unique_field, .isIn ids)]
      let jf ← ofOption PyErr.keyError (lookupA tr.join_fields "genomic")
      match setdefaultA q1 "genomic" [] with
      | (gl, q2, _) =>
        .ok (setA q2 "genomic" (gl.map fun gq => setA gq jf (.isIn ids)))) queries

/-! ## The query executor (`run_query`)

The document store is modelled by two collections of documents; a `find`
with an `$and` query keeps the documents every fragment matches.  One
invocation of `run_query` is a structural recursion over the query nodes,
each step recording what the source does for that node: the clinical find,
the genomic finds, every intermediate value of the `clinical_ids` set, the
hydration id lists, the cache writes and the emitted results. -/

/-- A stored document: a projection-shaped field dict. -/
abbrev Doc := List (String × JVal)

/-- The two collections of the matching database. -/
structure MongoDB where
  clinical : List Doc
  genomic : List Doc
deriving DecidableEq

/-- Model of `db[collection]`: a name other than the two collections holds no
documents. -/
def MongoDB.coll (db : MongoDB) (c : String) : List Doc :=
  if c = "clinical" then db.clinical else if c = "genomic" then db.genomic else []

/-- Whether a stored value satisfies one query condition. -/
def condMatch (v : JVal) : MCond → Bool
  | .eq w => decide (v = w)
  | .isIn ws => decide (v ∈ ws)

/-- Whether a document satisfies one AND-fragment: every listed field is
present with a satisfying value. -/
def fragMatch (d : Doc) (fr : Frag) : Bool :=
  fr.all fun fc =>
    match lookupA d fc.1 with
    | some v => condMatch v fc.2
    | none => false

/-- Model of `find({"$and": frs})`: keep the documents satisfying every fragment. -/
def findAnd (docs : List Doc) (frs : List Frag) : List Doc :=
  docs.filter fun d => frs.all (fragMatch d)

/-- The `find({"_id": {"$in": ids}})`. -/
def findByIds (docs : List Doc) (ids : List JVal) : List Doc :=
  docs.filter fun d =>
    match lookupA d "_id" with
    | some v => decide (v ∈ ids)
    | none => false

/-- The run-scoped document cache `cache.docs`. -/
abbrev Cache := List (JVal × Doc)

/-- The `all_results` accumulator: `clinical_id → {genomic_id, ...}`, a
`defaultdict(set)` kept in insertion order. -/
abbrev AllResults := List (JVal × List JVal)

/-- The `all_results[cid].add(gid)`. -/
def arAdd : AllResults → JVal → JVal → AllResults
  | [], cid, gid => [(cid, [gid])]
  | (k, gs) :: r, cid, gid =>
    if k = cid then (k, if gid ∈ gs then gs else gs ++ [gid]) :: r
    else (k, gs) :: arAdd r cid gid

/-- One recorded intermediate value of the `clinical_ids` set: after the
per-node accumulation of clinical results, or after one genomic
intersection. -/
inductive Snap where
  | clinAdd : List JVal → Snap
  | inter : List JVal → Snap
deriving DecidableEq

/-- The value tuple `run_query` yields per surviving patient
(`RawQueryResult(multi_collection_query, clinical_id, clinical_doc,
genomic_docs)`, without the query echo). -/
structure RawQueryResult where
  clinical_id : JVal
  clinical_doc : Doc
  genomic_docs : List Doc
deriving DecidableEq

/-- Everything one iteration of the node loop of `run_query` did. -/
structure NodeRec where
  clinCall : Option (List Frag)
  clinResult : Option (List JVal)
  genCalls : List (String × List Frag)
  snaps : List Snap
  hydration : Option (List JVal × List JVal)
  writes : List (JVal × Doc)
  emitted : List RawQueryResult
deriving DecidableEq

/-- Model of `execute_clinical_query`: when the clinical tag is absent from the
query the function body falls through and returns `None` without touching
the database; otherwise it runs the `$and` of the clinical fragments
projected to `_id` and returns the id set.  The executed query is returned
alongside for the record. -/
def execute_clinical_query (db : MongoDB) (tr : Transformer) (q : MCQuery) :
    Except PyErr (Option (List Frag) × Option (List JVal)) :=
  match lookupA q tr.CLINICAL with
  | none => .ok (none, none)
  | some frs => do
    let ids ← mapE (fun d => ofOption PyErr.keyError (lookupA d "_id"))
      (findAnd (db.coll tr.CLINICAL) frs)
    .ok (some frs, some (dedupKF ids))

/-- One genomic fragment of the genomic pass: set the join field to
`{$in: clinical_ids}` inside the fragment (`query.update`), rebuild it as an
`$and` list with the join-field constraint inserted first, run it, add every
`(result[join_field], result[_id])` pair to `all_results`, and intersect
`clinical_ids` with the surviving join-field values. -/
def runGenFrag (db : MongoDB) (coll jf : String) (fr : Frag) (cids : List JVal)
    (ar : AllResults) : Except PyErr (List Frag × AllResults × List JVal) := do
  let fr' := setA fr jf (.isIn cids)
  let newQ : List Frag :=
    if (fr'.map Prod.fst).contains jf then
      match lookupA fr' jf with
      | some c => [(jf, c)] :: (fr'.filter fun kv => kv.1 ≠ jf).map (fun kv => [kv])
      | none => [fr']
    else [fr']
  let pairs ← mapE (fun d => do
    let cid ← ofOption PyErr.keyError (lookupA d jf)
    let gid ← ofOption PyErr.keyError (lookupA d "_id")
    Except.ok (cid, gid)) (findAnd (db.coll coll) newQ)
  let ar' := pairs.foldl (fun a p => arAdd a p.1 p.2) ar
  let crids := pairs.map Prod.fst
  .ok (newQ, ar', cids.filter fun x => decide (x ∈ crids))

/-- Outcome of the genomic pass over one node: `stop` models the `return`
taken when an intersection empties `clinical_ids` (ending the whole
generator), `next` carries the surviving state. -/
inductive GenOut where
  | stop : List (String × List Frag) → List Snap → AllResults → GenOut
  | next : List JVal → AllResults → List (String × List Frag) → List Snap → GenOut
deriving DecidableEq

/-- The fragment loop (`for query in queries:`) of the genomic pass. -/
def runFrags (db : MongoDB) (coll jf : String) :
    List Frag → List JVal → AllResults → List (String × List Frag) → List Snap →
    Except PyErr GenOut
  | [], cids, ar, calls, snaps => .ok (.next cids ar calls snaps)
  | fr :: rest, cids, ar, calls, snaps => do
    let (q, ar', cids') ← runGenFrag db coll jf fr cids ar
    let calls' := calls ++ [(coll, q)]
    let snaps' := snaps ++ [.inter cids']
    if cids'.isEmpty then .ok (.stop calls' snaps' ar')
    else runFrags db coll jf rest cids' ar' calls' snaps'

/-- The collection loop (`for items in multi_collection_query.items():`) of
the genomic pass: the clinical entry is skipped while `clinical_ids` is
nonempty; every other entry resolves its join field from
`collection_mappings` (raising `KeyError` for an unmapped collection) and
runs its fragments. -/
def runColls (db : MongoDB) (tr : Transformer) :
    List (String × List Frag) → List JVal → AllResults →
    List (String × List Frag) → List Snap → Except PyErr GenOut
  | [], cids, ar, calls, snaps => .ok (.next cids ar calls snaps)
  | (coll, frs) :: rest, cids, ar, calls, snaps =>
    if coll = tr.CLINICAL && !cids.isEmpty then
      runColls db tr rest cids ar calls snaps
    else do
      let jf ← ofOption PyErr.keyError (lookupA tr.join_fields coll)
      match ← runFrags db coll jf frs cids ar calls snaps with
      | .stop calls' snaps' ar' => .ok (.stop calls' snaps' ar')
      | .next cids' ar' calls' snaps' => runColls db tr rest cids' ar' calls' snaps'

/-- Hydration: collect the `all_results` clinical ids and genomic ids not
yet in the cache, fetch them from the two collections by `_id`, and write
every fetched document into the cache under its `_id` (clinical results
first, as the source iterates the gathered result lists in order). -/
def hydrate (db : MongoDB) (cache : Cache) (ar : AllResults) :
    Except PyErr (List JVal × List JVal × List (JVal × Doc) × Cache) := do
  let nc := (ar.map Prod.fst).filter fun cid => !hasKeyA cache cid
  let ng := ar.flatMap fun p => p.2.filter fun gid => !hasKeyA cache gid
  let writes ← mapE (fun d => do
    let i ← ofOption PyErr.keyError (lookupA d "_id")
    Except.ok (i, d)) (findByIds db.clinical nc ++ findByIds db.genomic ng)
  .ok (nc, ng, writes, writes.foldl (fun c w => setA c w.1 w.2) cache)

/-- Emission: one `RawQueryResult` per `all_results` entry, reading the
documents back from the cache (a missing document raises `KeyError`). -/
def emitAll (cache : Cache) (ar : AllResults) : Except PyErr (List RawQueryResult) :=
  mapE (fun p => do
    let cd ← ofOption PyErr.keyError (lookupA cache p.1)
    let gds ← mapE (fun g => ofOption PyErr.keyError (lookupA cache g)) p.2
    Except.ok ⟨p.1, cd, gds⟩) ar

/-- The node loop of `run_query` (`for multi_collection_query in
multi_collection_queries:`).  An empty (or absent) clinical result returns
at once; an emptied intersection returns after the genomic pass; otherwise
the hydration and the emission run *inside* the loop, after which the next
node is processed with the accumulated `clinical_ids` and `all_results`. -/
def runNodes (db : MongoDB) (tr : Transformer) :
    List MCQuery → List JVal → AllResults → Cache →
    Except PyErr (List NodeRec × Cache)
  | [], _, _, cache => .ok ([], cache)
  | q :: rest, cids, ar, cache => do
    let (clinCall, clinRes) ← execute_clinical_query db tr q
    match clinRes with
    | none => .ok ([⟨clinCall, none, [], [], none, [], []⟩], cache)
    | some newIds =>
      if newIds.isEmpty then .ok ([⟨clinCall, some newIds, [], [], none, [], []⟩], cache)
      else
        let cids1 := newIds.foldl addUnique cids
        match ← runColls db tr q cids1 ar [] [.clinAdd cids1] with
        | .stop calls snaps ar' =>
          let _ := ar'
          .ok ([⟨clinCall, some newIds, calls, snaps, none, [], []⟩], cache)
        | .next cids2 ar2 calls snaps => do
          let (nc, ng, writes, cache2) ← hydrate db cache ar2
          let ems ← emitAll cache2 ar2
          let (recs, cacheF) ← runNodes db tr rest cids2 ar2 cache2
          .ok (⟨clinCall, some newIds, calls, snaps, some (nc, ng), writes, ems⟩ :: recs, cacheF)

/-- Model of `run_query`: fresh `clinical_ids` set and `all_results` accumulator,
the cache shared with the caller. -/
def run_query (db : MongoDB) (tr : Transformer) (queries : List MCQuery)
    (cache : Cache) : Except PyErr (List NodeRec × Cache) :=
  runNodes db tr queries [] [] cache

/-- A sequential composition of `run_query` invocations over one shared
cache (the unreachable continuation of `find_matches_model` below uses
it).  The concurrent worker pool of `find_matches` itself is modelled by
`stepWorker`/`runSched`, which interleave invocations at their hydration
suspension point. -/
def runPaths (db : MongoDB) (tr : Transformer) :
    List (List MCQuery) → Cache → Except PyErr (List (List NodeRec) × Cache)
  | [], cache => .ok ([], cache)
  | qs :: rest, cache => do
    let (recs, cache1) ← run_query db tr qs cache
    let (prs, cache2) ← runPaths db tr rest cache1
    .ok (recs :: prs, cache2)

/-- All results one `run_query` invocation emitted, in order. -/
def pathEmissions (recs : List NodeRec) : List RawQueryResult :=
  recs.flatMap (·.emitted)

/-- The chronological `clinical_ids` snapshots of one invocation. -/
def pathSnaps (recs : List NodeRec) : List Snap :=
  recs.flatMap (·.snaps)

/-- The chronological hydration requests of one invocation. -/
def pathHydrations (recs : List NodeRec) : List (List JVal × List JVal) :=
  recs.filterMap (·.hydration)

/-- The chronological cache writes of one invocation. -/
def pathWrites (recs : List NodeRec) : List (JVal × Doc) :=
  recs.flatMap (·.writes)

/-! ## The declared constructor signatures and `find_matches`

`find_matches` (matchengine.py line 73) constructs the shared cache with
`Cache(int(), int(), int(), int(), dict(), dict())`, and the extractor
(line 196) constructs `MatchClauseData` with four positional arguments.
`matchengine_types.py` declares `Cache.__init__(self)` with no further
parameters (lines 118-124) and `MatchClauseData` as a dataclass with six
required fields (lines 83-91).  Python raises `TypeError` when a call's
positional arguments do not match the declared parameters (neither
declaration has defaults). -/

/-- The parameters of `Cache.__init__` after `self`
(`matchengine_types.py` line 122): none. -/
def Cache_init_params : List String := []

/-- The six required fields of the `MatchClauseData` dataclass
(`matchengine_types.py` lines 83-91). -/
def MatchClauseData_fields : List String :=
  ["match_clause", "internal_id", "parent_path", "match_clause_level",
   "match_clause_additional_attributes", "protocol_no"]

/-- Python call semantics for a constructor without default values:
`TypeError` unless the number of positional arguments equals the number of
declared parameters. -/
def pyConstructorCall (params : List String) (nargs : Nat) : Except PyErr Unit :=
  if nargs = params.length then .ok () else .error .typeError

/-- The `MatchClauseData` dataclass as declared in `matchengine_types.py`:
six required fields. -/
structure MatchClauseData where
  match_clause : JVal
  internal_id : String
  parent_path : List PElem
  match_clause_level : String
  match_clause_additional_attributes : List (String × JVal)
  protocol_no : String
deriving DecidableEq

/-- The extraction generator run against the declared six-field
`MatchClauseData`: the first yield evaluates the four-argument constructor
call, which raises `TypeError`
(`pyConstructorCall MatchClauseData_fields 4 = .error .typeError`), and the
first yield attempt chronologically precedes every later step of the
traversal.  A run whose unchecked traversal never reaches a yield ends the
way the traversal does. -/
def extractChecked (moc : Bool) (fuel : Nat) (trial : List (String × JVal)) :
    List MatchClauseData × ExtractEnd :=
  let r := extract_match_clauses_from_trial moc fuel trial
  if r.1.isEmpty then ([], r.2) else ([], .err .typeError)

/-- The `find_matches`, from the `Cache(...)` construction of line 73 onward:
the constructor call raises before the trial loop runs, before any task is
queued and before any result is yielded.  The continuation spells out the
pipeline the loop would run (extraction, tree, paths, translation, id
injection, execution over the shared cache). -/
def find_matches_model (db : MongoDB) (tr : Transformer) (fuel : Nat)
    (trials : List (List (String × JVal))) (ids : Option (List JVal)) (moc : Bool) :
    Except PyErr (List RawQueryResult) := do
  let _cache ← pyConstructorCall Cache_init_params 6
  let tasks ← mapE (fun trial =>
    match extractChecked moc fuel trial with
    | (clauses, .done) =>
      mapE (fun mcd =>
        match mcd.match_clause with
        | .jlist items =>
          match create_match_tree fuel items with
          | .done t =>
            mapE (fun mp => do
              let qs ← translate_match_path tr mcd.parent_path mp
              add_ids_to_query tr qs ids) (get_match_paths t)
          | .err e => .error e
          | .fuelOut => .error .runtimeError
        | _ => .error .typeError) clauses
    | (_, .err e) => .error e
    | (_, .fuelOut) => .error .runtimeError) trials
  let flat := (tasks.flatMap id).flatMap id
  let (prs, _) ← runPaths db tr flat []
  .ok (prs.flatMap pathEmissions)

/-! ## Further definitions for the verification development -/

/-- The empty node record produced when a node stops the run. -/
def stopRec (clinCall : Option (List Frag)) (clinResult : Option (List JVal)) : NodeRec :=
  ⟨clinCall, clinResult, [], [], none, [], []⟩

/-- The record of a node whose genomic pass emptied the intersection. -/
def interStopRec (clinCall : Option (List Frag)) (newIds : List JVal)
    (calls : List (String × List Frag)) (snaps : List Snap) : NodeRec :=
  ⟨clinCall, some newIds, calls, snaps, none, [], []⟩

/-! ## Concrete executor scenarios

A two-patient database; two query paths exercising the per-node hydration
and emission of `run_query`. -/

/-- Clinical document of patient 1. -/
def cDocA1 : Doc := [("_id", .n 1), ("ONCOTREE_PRIMARY_DIAGNOSIS_NAME", .s "Lung")]

/-- Clinical document of patient 2. -/
def cDocA2 : Doc := [("_id", .n 2), ("ONCOTREE_PRIMARY_DIAGNOSIS_NAME", .s "Colon")]

/-- Genomic document of patient 1. -/
def gDocA1 : Doc := [("_id", .n 101), ("CLINICAL_ID", .n 1), ("TRUE_HUGO_SYMBOL", .s "BRAF")]

/-- Genomic document of patient 2. -/
def gDocA2 : Doc := [("_id", .n 102), ("CLINICAL_ID", .n 2), ("TRUE_HUGO_SYMBOL", .s "BRAF")]

/-- The two-patient database. -/
def dbA : MongoDB := ⟨[cDocA1, cDocA2], [gDocA1, gDocA2]⟩

/-- Query node selecting patient 1 clinically, BRAF genomically. -/
def qnA1 : MCQuery :=
  [("clinical", [[("ONCOTREE_PRIMARY_DIAGNOSIS_NAME", .eq (.s "Lung"))]]),
   ("genomic", [[("TRUE_HUGO_SYMBOL", .eq (.s "BRAF"))]])]

/-- Query node selecting patient 2 clinically, BRAF genomically. -/
def qnA2 : MCQuery :=
  [("clinical", [[("ONCOTREE_PRIMARY_DIAGNOSIS_NAME", .eq (.s "Colon"))]]),
   ("genomic", [[("TRUE_HUGO_SYMBOL", .eq (.s "BRAF"))]])]

/-- Query node whose clinical pass matches no document. -/
def qnB2 : MCQuery :=
  [("clinical", [[("ONCOTREE_PRIMARY_DIAGNOSIS_NAME", .eq (.s "Breast"))]])]

/-- Path A: both patients pass, one node each. -/
def qA : List MCQuery := [qnA1, qnA2]

/-- Path B: patient 1 passes node one, node two's clinical pass is empty. -/
def qB : List MCQuery := [qnA1, qnB2]

/-- The first node record of the run of path A (computed by the model). -/
def recA1 : NodeRec :=
  ⟨some [[("ONCOTREE_PRIMARY_DIAGNOSIS_NAME", .eq (.s "Lung"))]],
   some [.n 1],
   [("genomic", [[("CLINICAL_ID", .isIn [.n 1])], [("TRUE_HUGO_SYMBOL", .eq (.s "BRAF"))]])],
   [.clinAdd [.n 1], .inter [.n 1]],
   some ([.n 1], [.n 101]),
   [(.n 1, cDocA1), (.n 101, gDocA1)],
   [⟨.n 1, cDocA1, [gDocA1]⟩]⟩

/-- The second node record of the run of path A. -/
def recA2 : NodeRec :=
  ⟨some [[("ONCOTREE_PRIMARY_DIAGNOSIS_NAME", .eq (.s "Colon"))]],
   some [.n 2],
   [("genomic", [[("CLINICAL_ID", .isIn [.n 1, .n 2])], [("TRUE_HUGO_SYMBOL", .eq (.s "BRAF"))]])],
   [.clinAdd [.n 1, .n 2], .inter [.n 1, .n 2]],
   some ([.n 2], [.n 102]),
   [(.n 2, cDocA2), (.n 102, gDocA2)],
   [⟨.n 1, cDocA1, [gDocA1]⟩, ⟨.n 2, cDocA2, [gDocA2]⟩]⟩

/-- The cache after the run of path A. -/
def cacheAF : Cache := [(.n 1, cDocA1), (.n 101, gDocA1), (.n 2, cDocA2), (.n 102, gDocA2)]

/-- The cache after the run of path B. -/
def cacheBF : Cache := [(.n 1, cDocA1), (.n 101, gDocA1)]

/-- The second node record of the run of path B: its clinical pass is empty. -/
def recB2 : NodeRec :=
  stopRec (some [[("ONCOTREE_PRIMARY_DIAGNOSIS_NAME", .eq (.s "Breast"))]]) (some [])

/-- Whether the `arm_suspended` flag of one arm dict reads `"y"` after
lower-casing and trimming. -/
def armSuspY : JVal → Bool
  | .jdict ad =>
    match lookupA ad "arm_suspended" with
    | some (.s v) => decide (pyStrip (pyLower v) = "y")
    | _ => false
  | _ => false

/-- Whether `attrs[k]` is a string flag other than `"y"` (after lower-casing
and trimming). -/
def flagNotY (attrs : List (String × JVal)) (k : String) : Bool :=
  match lookupA attrs k with
  | some (.s v) => decide (pyStrip (pyLower v) ≠ "y")
  | _ => false

/-- The key naming the entity that owns a clause: the element of the parent
path just before the final `(parent_key, 'match')` pair — what the source
reads as `path[-1]`. -/
def ownerKeyOf (pp : List PElem) : Option PElem :=
  pp.dropLast.dropLast.getLast?

/-- A yielded clause does not belong to a suspended entity: an arm owner has
a non-`"y"` `arm_suspended` flag, a dose owner a non-`"y"` `level_suspended`
flag, and a step owner an arm list not entirely suspended. -/
def notSuspendedOwner (m : YieldedMatchClause) : Bool :=
  let attrs := m.match_clause_additional_attributes
  (if ownerKeyOf m.parent_path = some (.ks "arm") then flagNotY attrs "arm_suspended"
   else true) &&
  (if ownerKeyOf m.parent_path = some (.ks "dose") then flagNotY attrs "level_suspended"
   else true) &&
  (if ownerKeyOf m.parent_path = some (.ks "step") then
    match lookupA attrs "arm" with
    | some (.jlist arms) => !(arms.all armSuspY)
    | _ => false
  else true)

/-! ## Concrete trials for the extraction claims -/

/-- A trial with one arm-level clause whose suspension flag reads `"n"`. -/
def armTrial : List (String × JVal) :=
  [("treatment_list", .jdict [("step", .jlist [.jdict [("arm", .jlist [
    .jdict [("arm_suspended", .s "n"), ("match", .jlist [])]])]])])]

/-- The eligibility clause carried by `suspendedArmTrial`. -/
def suspClauseVal : JVal :=
  .jlist [.jdict [("clinical", .jdict [("AGE", .s ">=18")])]]

/-- The parent path of the single clause of the three scenario trials. -/
def armClausePath : List PElem :=
  [.ks "treatment_list", .ks "step", .ki 0, .ks "arm", .ki 0, .ks "match"]

/-- A trial whose only clause sits on an arm with `arm_suspended: " Y "`
(suspension flags compare case-insensitively after trimming). -/
def suspendedArmTrial : List (String × JVal) :=
  [("treatment_list", .jdict [("step", .jlist [.jdict [("arm", .jlist [
    .jdict [("arm_suspended", .s " Y "), ("match", suspClauseVal)]])]])])]

/-- A trial whose arm carries a clause but no `arm_suspended` flag. -/
def noFlagArmTrial : List (String × JVal) :=
  [("treatment_list", .jdict [("step", .jlist [.jdict [("arm", .jlist [
    .jdict [("match", .jlist [])]])]])])]

/-- The translate-and-inject pipeline for one clause, as `find_matches`
runs it: build the match tree, enumerate its paths, translate each path
and inject the candidate id list. -/
def translateAndInject (fuel : Nat) (clause : List JVal) (ids : Option (List JVal)) :
    Except PyErr (List (List MCQuery)) :=
  match create_match_tree fuel clause with
  | .done t =>
    mapE (fun mp => do
      let qs ← translate_match_path theTransformer [] mp
      add_ids_to_query theTransformer qs ids) (get_match_paths t)
  | .err e => .error e
  | .fuelOut => .error .runtimeError

/-- The single-leaf genomic clause `[{genomic: {HUGO_SYMBOL: "BRAF"}}]`. -/
def brafClause : List JVal := [.jdict [("genomic", .jdict [("HUGO_SYMBOL", .s "BRAF")])]]

/-- What the pipeline actually produces for `brafClause`: one genomic
AND-fragment holding both conditions (the join field is written *into* the
translated fragment), plus a clinical fragment the `defaultdict` creates on
injection. -/
def brafInjected (ids : List JVal) : MCQuery :=
  [("genomic", [[("HUGO_SYMBOL", .eq (.s "BRAF")), ("CLINICAL_ID", .isIn ids)]]),
   ("clinical", [[("_id", .isIn ids)]])]

mutual

/-- A well-formed criterion item containing no `or` operator: a dict whose
`and` entries hold lists of such items and whose other entries are
leaves. -/
def wfNoOrItem : JVal → Bool
  | .jdict kvs => wfNoOrEntries kvs
  | _ => false

/-- Entry-list form of `wfNoOrItem`. -/
def wfNoOrEntries : List (String × JVal) → Bool
  | [] => true
  | (k, v) :: r => wfNoOrEntry k v && wfNoOrEntries r

/-- One entry of a no-`or` item: no `or` key, and an `and` key holds a list
of no-`or` items. -/
def wfNoOrEntry : String → JVal → Bool
  | k, .jlist vs => if k = "or" then false else if k = "and" then wfNoOrList vs else true
  | k, _ => if k = "or" then false else if k = "and" then false else true

/-- List form of `wfNoOrItem`. -/
def wfNoOrList : List JVal → Bool
  | [] => true
  | v :: r => wfNoOrItem v && wfNoOrList r

end

/-- A single-label leaf criterion: a one-entry dict whose key is neither
`and` nor `or`. -/
def singleLabelLeaf : JVal → Bool
  | .jdict [(k, _)] => !(k == "and") && !(k == "or")
  | _ => false

/-- The tree the builder produces for a two-item conjunction. -/
def andConjTree : MatchTree :=
  ⟨[⟨0, none, false,
     [[("genomic", .jdict [("HUGO_SYMBOL", .s "EGFR")])],
      [("clinical", .jdict [("AGE", .s "18")])]]⟩]⟩

/-- The tree the builder produces for a three-branch `or`. -/
def threeOrTree : MatchTree :=
  ⟨[⟨0, none, false, []⟩, ⟨1, some 0, true, []⟩,
    ⟨2, some 1, false, [[("genomic", .jdict [("C", .s "3")])]]⟩,
    ⟨3, some 1, false, [[("genomic", .jdict [("B", .s "2")])]]⟩,
    ⟨4, some 1, false, [[("genomic", .jdict [("A", .s "1")])]]⟩]⟩

/-- The accumulator carried by a genomic-pass outcome. -/
def GenOut.arOf : GenOut → AllResults
  | .stop _ _ a => a
  | .next _ a _ _ => a

/-- The id list a snapshot records. -/
def Snap.idsOf : Snap → List JVal
  | .clinAdd l => l
  | .inter l => l

/-- Whether a snapshot is a genomic intersection. -/
def Snap.isInter : Snap → Bool
  | .inter _ => true
  | .clinAdd _ => false

/-- Each snapshot's ids are a subset of the previous snapshot's ids — the
monotone non-increase the specification asserts, read along a trace. -/
def nonIncreasing (cur : List JVal) : List Snap → Bool
  | [] => true
  | s :: rest => ((s.idsOf).all fun x => decide (x ∈ cur)) && nonIncreasing s.idsOf rest

/-- A trace is decreasing from `cur`: intersections shrink, clinical
accumulations grow (the actual step-wise behaviour of `clinical_ids`). -/
def chainDec (cur : List JVal) : List Snap → Bool
  | [] => true
  | .inter l :: rest => (l.all fun x => decide (x ∈ cur)) && chainDec l rest
  | .clinAdd l :: rest => (cur.all fun x => decide (x ∈ l)) && chainDec l rest

/-- The value of `clinical_ids` at the end of a trace. -/
def chainEnd (cur : List JVal) : List Snap → List JVal
  | [] => cur
  | .inter l :: rest => chainEnd l rest
  | .clinAdd l :: rest => chainEnd l rest

/-- The per-node snapshot shape: one clinical accumulation followed by
intersections, each a subset of its predecessor. -/
def snapShapeOK : List Snap → Bool
  | [] => true
  | .clinAdd ids :: r => r.all Snap.isInter && nonIncreasing ids r
  | .inter _ :: _ => false

/-- The snapshot list a genomic-pass outcome carries. -/
def GenOut.snapsOf : GenOut → List Snap
  | .stop _ s _ => s
  | .next _ _ _ s => s

/-- The surviving `clinical_ids`, when the pass did not stop the run. -/
def GenOut.survivors : GenOut → Option (List JVal)
  | .stop _ _ _ => none
  | .next c _ _ _ => some c

/-- The clinical `_id`s stored in the database. -/
def clinIds (db : MongoDB) : List JVal := db.clinical.filterMap fun d => lookupA d "_id"

/-- The genomic `_id`s stored in the database. -/
def genIds (db : MongoDB) : List JVal := db.genomic.filterMap fun d => lookupA d "_id"

/-- Database well-formedness: every document carries an `_id`, ids are
unique per collection and across the two collections, and every genomic
`CLINICAL_ID` names a stored clinical document. -/
def wfdb (db : MongoDB) : Bool :=
  (db.clinical.all fun d => (lookupA d "_id").isSome) &&
  (db.genomic.all fun d => (lookupA d "_id").isSome) &&
  decide (clinIds db).Nodup && decide (genIds db).Nodup &&
  ((clinIds db).all fun i => !(decide (i ∈ genIds db))) &&
  (db.genomic.all fun d => match lookupA d "CLINICAL_ID" with
     | some v => decide (v ∈ clinIds db)
     | none => true)

/-- The accumulator invariant: keys are duplicate-free, the genomic ids
are globally duplicate-free, keys are stored `CLINICAL_ID` values and
genomic ids come from stored genomic documents of the matching key. -/
def arInv (db : MongoDB) (ar : AllResults) : Prop :=
  (ar.map Prod.fst).Nodup ∧ (ar.flatMap fun p => p.2).Nodup ∧
  ∀ p ∈ ar, (∃ d ∈ db.genomic, lookupA d "CLINICAL_ID" = some p.1) ∧
    ∀ g ∈ p.2, ∃ d ∈ db.genomic,
      lookupA d "CLINICAL_ID" = some p.1 ∧ lookupA d "_id" = some g

/-- The ids one node's hydration requested from the database. -/
def reqOf (rec : NodeRec) : List JVal :=
  match rec.hydration with
  | some p => p.1 ++ p.2
  | none => []

/-! ## The concurrent worker pool

`find_matches` (matchengine.py lines 96-98) starts up to
`min(qsize, num_workers)` asyncio tasks (`queue_worker`, lines 22-44) that
run `run_query` invocations over the queued paths with one shared `cache`.
An asyncio task runs synchronously between `await`s; the shared cache is
read when hydration collects the uncached ids (lines 380-386) and written
only after the fetch `gather` of line 415 returns.  The machine below
gives each path its own worker and lets an arbitrary schedule choose
which worker steps next.  A step is a maximal synchronous region
bordering that `gather` — the one suspension point separating a cache
read from the cache write that depends on it.  Regions that touch no
shared state (the clinical and genomic finds read only the database and
worker-local state) are coalesced into the neighbouring shared-state
step, and the emission's cache reads are coalesced with the write-back
(harmless: the coherence theorem shows a same-key write never changes an
entry's value).  Assigning several paths to one worker only restricts the
schedule set, so a property proved over all schedules covers the pool. -/

/-- A worker suspended at the hydration `gather` of line 415: the uncached
ids were collected against the shared cache and the documents fetched, but
the write-back has not run yet. -/
structure MidSt where
  rest : List MCQuery
  cids2 : List JVal
  ar2 : AllResults
  clinCall : Option (List Frag)
  newIds : List JVal
  calls : List (String × List Frag)
  snaps : List Snap
  nc : List JVal
  ng : List JVal
  pend : List (JVal × Doc)
deriving DecidableEq

/-- A worker's control point: before a node, suspended at the hydration
`gather`, or finished. -/
inductive WPhase where
  | ready : List MCQuery → List JVal → AllResults → WPhase
  | mid : MidSt → WPhase
  | stopped : WPhase
deriving DecidableEq

/-- One worker of the pool: its control point and the node records its
invocation has produced. -/
structure Worker where
  phase : WPhase
  recs : List NodeRec
deriving DecidableEq

/-- The pool state: the workers and the shared cache. -/
structure Sys where
  workers : List Worker
  cache : Cache
deriving DecidableEq

/-- One asyncio step of a worker.  From `ready`, the node's clinical and
genomic passes run (returns on an empty or absent clinical result and on
an emptied intersection end the invocation, exactly as in `runNodes`),
then the hydration check and fetch run against the current shared cache
and the worker suspends at the `gather` holding the fetched documents:
`hydrate` computes them, and its last component — the write-back that has
not happened yet — is discarded.  From `mid`, the write-back and the
emission run synchronously and the worker moves to its next node. -/
def stepWorker (db : MongoDB) (tr : Transformer) (cache : Cache) :
    WPhase → Except PyErr (WPhase × Option NodeRec × Cache)
  | .stopped => .ok (.stopped, none, cache)
  | .ready [] _ _ => .ok (.stopped, none, cache)
  | .ready (q :: rest) cids ar => do
    let (clinCall, clinRes) ← execute_clinical_query db tr q
    match clinRes with
    | none => .ok (.stopped, some (stopRec clinCall none), cache)
    | some newIds =>
      if newIds.isEmpty then
        .ok (.stopped, some (stopRec clinCall (some newIds)), cache)
      else
        let cids1 := newIds.foldl addUnique cids
        match ← runColls db tr q cids1 ar [] [.clinAdd cids1] with
        | .stop calls snaps ar' =>
          let _ := ar'
          .ok (.stopped, some (interStopRec clinCall newIds calls snaps), cache)
        | .next cids2 ar2 calls snaps => do
          let (nc, ng, writes, _) ← hydrate db cache ar2
          .ok (.mid ⟨rest, cids2, ar2, clinCall, newIds, calls, snaps, nc, ng, writes⟩,
               none, cache)
  | .mid m => do
    let cache2 := m.pend.foldl (fun c w => setA c w.1 w.2) cache
    let ems ← emitAll cache2 m.ar2
    .ok (.ready m.rest m.cids2 m.ar2,
         some ⟨m.clinCall, some m.newIds, m.calls, m.snaps, some (m.nc, m.ng), m.pend, ems⟩,
         cache2)

/-- Run worker `i` for one step; an index past the pool or a finished
worker is a no-op (the event loop picks someone runnable). -/
def stepSys (db : MongoDB) (tr : Transformer) (s : Sys) (i : Nat) :
    Except PyErr Sys :=
  match s.workers.get? i with
  | none => .ok s
  | some w => do
    let (ph2, mrec, cache2) ← stepWorker db tr s.cache w.phase
    .ok ⟨s.workers.set i ⟨ph2, w.recs ++ mrec.toList⟩, cache2⟩

/-- Run the pool under an arbitrary schedule — a list of worker indices,
the event loop's choice of which suspended task resumes next. -/
def runSched (db : MongoDB) (tr : Transformer) : Sys → List Nat → Except PyErr Sys
  | s, [] => .ok s
  | s, i :: rest => do runSched db tr (← stepSys db tr s i) rest

/-- The initial pool: one fresh `run_query` invocation per path over an
empty shared cache. -/
def initSys (paths : List (List MCQuery)) : Sys :=
  ⟨paths.map fun qs => ⟨.ready qs [] [], []⟩, []⟩

/-- Every id any worker requested from the database, in worker order. -/
def sysReqs (s : Sys) : List JVal :=
  s.workers.flatMap fun w => w.recs.flatMap reqOf

/-- Every cache write any worker performed, in worker order. -/
def sysWrites (s : Sys) : List (JVal × Doc) :=
  s.workers.flatMap fun w => w.recs.flatMap (·.writes)

/-- A sound write: its body is a stored document carrying the written key
as its `_id`. -/
def writeOK (db : MongoDB) (kd : JVal × Doc) : Prop :=
  kd.2 ∈ db.clinical ++ db.genomic ∧ lookupA kd.2 "_id" = some kd.1

/-- The live accumulator of a control point. -/
def phaseAr : WPhase → Option AllResults
  | .ready _ _ ar => some ar
  | .mid m => some m.ar2
  | .stopped => none

/-- The per-worker invariant: recorded writes are sound, every past
request is cached, no id was requested twice, the live accumulator
respects the database, and a suspended hydration's pending writes answer
exactly its requests, which extend the request history without
duplicates. -/
def wInv (db : MongoDB) (cache : Cache) (w : Worker) : Prop :=
  (∀ rec ∈ w.recs, ∀ kd ∈ rec.writes, writeOK db kd) ∧
  (∀ x ∈ w.recs.flatMap reqOf, hasKeyA cache x = true) ∧
  (w.recs.flatMap reqOf).Nodup ∧
  (∀ ar, phaseAr w.phase = some ar → arInv db ar) ∧
  (∀ m, w.phase = .mid m →
    (w.recs.flatMap reqOf ++ (m.nc ++ m.ng)).Nodup ∧
    (∀ kd ∈ m.pend, writeOK db kd) ∧
    (∀ x ∈ m.nc ++ m.ng, x ∈ m.pend.map Prod.fst) ∧
    (∀ x ∈ m.pend.map Prod.fst, x ∈ m.nc ++ m.ng))

/-- Every cache entry is sound. -/
def cacheOK (db : MongoDB) (cache : Cache) : Prop :=
  ∀ k d, lookupA cache k = some d → writeOK db (k, d)

/-- The pool invariant. -/
def sysInv (db : MongoDB) (s : Sys) : Prop :=
  cacheOK db s.cache ∧ ∀ w ∈ s.workers, wInv db s.cache w

/-- The final state of both workers of the racing schedule: each ran the
same single-node path to completion. -/
def wkF : Worker := ⟨.ready [] [.n 1] [(.n 1, [.n 101])], [recA1]⟩

/-- The final pool state of the racing schedule: both workers fetched and
wrote patient 1's documents; the cache holds one copy. -/
def sysF : Sys := ⟨[wkF, wkF], cacheBF⟩

/-! ## Theorems -/

/-- Inversion of one step of the node loop. -/
lemma runNodes_cons_inv (db : MongoDB) (tr : Transformer) (q : MCQuery)
    (rest : List MCQuery) (cids : List JVal) (ar : AllResults) (cache : Cache)
    (recs : List NodeRec) (cacheF : Cache)
    (h : runNodes db tr (q :: rest) cids ar cache = .ok (recs, cacheF)) :
    ∃ clinCall clinRes, execute_clinical_query db tr q = .ok (clinCall, clinRes) ∧
    ((clinRes = none ∧ recs = [stopRec clinCall none] ∧ cacheF = cache) ∨
     (clinRes = some [] ∧ recs = [stopRec clinCall (some [])] ∧ cacheF = cache) ∨
     (∃ newIds calls snaps ar',
        clinRes = some newIds ∧ newIds ≠ [] ∧
        runColls db tr q (newIds.foldl addUnique cids) ar []
            [.clinAdd (newIds.foldl addUnique cids)] = .ok (.stop calls snaps ar') ∧
        recs = [interStopRec clinCall newIds calls snaps] ∧ cacheF = cache) ∨
     (∃ newIds cids2 ar2 calls snaps nc ng writes cache2 ems recs',
        clinRes = some newIds ∧ newIds ≠ [] ∧
        runColls db tr q (newIds.foldl addUnique cids) ar []
            [.clinAdd (newIds.foldl addUnique cids)] = .ok (.next cids2 ar2 calls snaps) ∧
        hydrate db cache ar2 = .ok (nc, ng, writes, cache2) ∧
        emitAll cache2 ar2 = .ok ems ∧
        runNodes db tr rest cids2 ar2 cache2 = .ok (recs', cacheF) ∧
        recs = ⟨clinCall, some newIds, calls, snaps, some (nc, ng), writes, ems⟩ :: recs')) := by
  rw [runNodes] at h
  cases hexec : execute_clinical_query db tr q with
  | error e => rw [hexec] at h; simp [Bind.bind, Except.bind] at h
  | ok pr =>
    obtain ⟨clinCall, clinRes⟩ := pr
    rw [hexec] at h
    simp only [Bind.bind, Except.bind] at h
    refine ⟨clinCall, clinRes, rfl, ?_⟩
    split at h
    · left
      obtain ⟨h1, h2⟩ := Prod.mk.inj (Except.ok.inj h)
      exact ⟨rfl, h1.symm, h2.symm⟩
    · next newIds =>
      split at h
      · next hnew =>
        right; left
        rw [List.isEmpty_iff] at hnew
        subst hnew
        obtain ⟨h1, h2⟩ := Prod.mk.inj (Except.ok.inj h)
        exact ⟨rfl, h1.symm, h2.symm⟩
      · next hnew =>
        rw [List.isEmpty_iff] at hnew
        split at h
        · exact absurd h (by simp)
        · next v hcoll =>
          cases v with
          | stop calls snaps ar' =>
            right; right; left
            simp only at h
            obtain ⟨h1, h2⟩ := Prod.mk.inj (Except.ok.inj h)
            exact ⟨newIds, calls, snaps, ar', rfl, hnew, hcoll, h1.symm, h2.symm⟩
          | next cids2 ar2 calls snaps =>
            right; right; right
            simp only [Bind.bind, Except.bind] at h
            split at h
            · exact absurd h (by simp)
            · next hr hhyd =>
              obtain ⟨nc, ng, writes, cache2⟩ := hr
              simp only [Bind.bind, Except.bind] at h
              split at h
              · exact absurd h (by simp)
              · next ems hem =>
                split at h
                · exact absurd h (by simp)
                · next rr hrest =>
                  obtain ⟨recs', cacheF'⟩ := rr
                  simp only at h
                  obtain ⟨h1, h2⟩ := Prod.mk.inj (Except.ok.inj h)
                  exact ⟨newIds, cids2, ar2, calls, snaps, nc, ng, writes, cache2, ems, recs',
                    rfl, hnew, hcoll, hhyd, hem, by rw [hrest, h2], h1.symm⟩

lemma runA_eval : run_query dbA theTransformer qA [] = .ok ([recA1, recA2], cacheAF) := rfl

lemma runB_eval : run_query dbA theTransformer qB [] = .ok ([recA1, recB2], cacheBF) := rfl

lemma lookupA_append_not_found {κ α : Type} [DecidableEq κ]
    (d : List (κ × α)) (k : κ) (v : α) (h : lookupA d k = none) :
    lookupA (d ++ [(k, v)]) k = some v := by
  induction d with
  | nil => simp [lookupA]
  | cons e r ih =>
    by_cases he : e.1 = k
    · simp [lookupA, he] at h
    · simp only [List.cons_append, lookupA, he, if_false] at h ⊢
      exact ih h

lemma lookupA_append_other {κ α : Type} [DecidableEq κ]
    (d : List (κ × α)) (k k' : κ) (v : α) (hne : k ≠ k') :
    lookupA (d ++ [(k, v)]) k' = lookupA d k' := by
  induction d with
  | nil => simp [lookupA, hne]
  | cons e r ih =>
    by_cases he : e.1 = k'
    · simp [lookupA, he]
    · simp only [List.cons_append, lookupA, he, if_false]
      exact ih

lemma setdefaultA_lookup_self {α : Type} (d : List (String × α)) (k : String) (v : α) :
    lookupA (setdefaultA d k v).2.1 k = some (setdefaultA d k v).1 := by
  unfold setdefaultA
  cases h : lookupA d k with
  | some w => simp [h]
  | none => simpa [h] using lookupA_append_not_found d k v h

lemma setdefaultA_lookup_other {α : Type} (d : List (String × α)) (k k' : String) (v : α)
    (hne : k ≠ k') : lookupA (setdefaultA d k v).2.1 k' = lookupA d k' := by
  unfold setdefaultA
  cases h : lookupA d k with
  | some w => simp [h]
  | none => simpa [h] using lookupA_append_other d k k' v hne

lemma armsAllSuspended_all (arms : List JVal) :
    ∀ b arms', armsAllSuspended arms = .ok (b, arms') → arms'.all armSuspY = b := by
  induction arms with
  | nil =>
    intro b arms' h
    unfold armsAllSuspended at h
    obtain ⟨hb, ha⟩ : b = true ∧ arms' = [] := by
      constructor
      · exact (congrArg (·.1) (Except.ok.inj h)).symm
      · exact (congrArg (·.2) (Except.ok.inj h)).symm
    subst hb; subst ha; simp
  | cons a rest ih =>
    intro b arms' h
    unfold armsAllSuspended at h
    cases a with
    | jdict ad =>
      simp only at h
      cases hv : (setdefaultA ad "arm_suspended" (.s "n")).1 with
      | s str =>
        rw [hv] at h
        cases hr : armsAllSuspended rest with
        | error e => rw [hr] at h; simp [Bind.bind, Except.bind] at h
        | ok br =>
          rw [hr] at h
          simp only [Bind.bind, Except.bind, Except.ok.injEq] at h
          have h1 : arms' = JVal.jdict (setdefaultA ad "arm_suspended" (.s "n")).2.1 :: br.2 :=
            (congrArg (·.2) h).symm
          have h2 : b = ((pyStrip (pyLower str) = "y") && br.1) := (congrArg (·.1) h).symm
          subst h1; subst h2
          have hbr := ih br.1 br.2 (by rw [hr])
          simp only [List.all_cons, hbr]
          congr 1
          simp only [armSuspY, setdefaultA_lookup_self, hv]
      | n i => rw [hv] at h; exact absurd h (by simp)
      | jdict x => rw [hv] at h; exact absurd h (by simp)
      | jlist x => rw [hv] at h; exact absurd h (by simp)
    | s str => exact absurd h (by simp)
    | n i => exact absurd h (by simp)
    | jlist l => exact absurd h (by simp)

lemma setA_lookup_self {κ α : Type} [DecidableEq κ] (d : List (κ × α)) (k : κ) (v : α) :
    lookupA (setA d k v) k = some v := by
  induction d with
  | nil => simp [setA, lookupA]
  | cons e r ih =>
    by_cases he : e.1 = k
    · simp [setA, lookupA, he]
    · simp [setA, lookupA, he, ih]

lemma setA_lookup_other {κ α : Type} [DecidableEq κ] (d : List (κ × α)) (k k' : κ) (v : α)
    (hne : k ≠ k') : lookupA (setA d k v) k' = lookupA d k' := by
  induction d with
  | nil => simp [setA, lookupA, hne]
  | cons e r ih =>
    by_cases he : e.1 = k
    · subst he; simp [setA, lookupA, hne, Ne.symm hne]
    · by_cases he' : e.1 = k'
      · simp [setA, lookupA, he, he']
        rw [if_neg (Ne.symm hne)]
        simp [lookupA]
      · simp [setA, lookupA, he, he', ih]

lemma suspFlagCheck_not_susp (d d' : List (String × JVal)) (flag : String) (ins : Bool)
    (h : suspFlagCheck d flag = .ok (false, d', ins)) : flagNotY d' flag = true := by
  cases hv : (setdefaultA d flag (.s "n")).1 with
  | s str =>
    simp only [suspFlagCheck, hv, Except.ok.injEq] at h
    have hb : (decide (pyStrip (pyLower str) = "y") : Bool) = false := by
      have := congrArg (·.1) h; simpa using this.symm
    have hd : d' = (setdefaultA d flag (.s "n")).2.1 := by
      have := congrArg (·.2.1) h; simpa using this.symm
    subst hd
    simp only [flagNotY, setdefaultA_lookup_self, hv]
    simpa using hb
  | n i => simp [suspFlagCheck, hv] at h
  | jdict x => simp [suspFlagCheck, hv] at h
  | jlist x => simp [suspFlagCheck, hv] at h

lemma stepSuspCheck_not_susp (d d' : List (String × JVal)) (ins : Bool)
    (h : stepSuspCheck d = .ok (false, d', ins)) :
    (match lookupA d' "arm" with
     | some (.jlist arms) => !(arms.all armSuspY)
     | _ => false) = true := by
  cases hv : (setdefaultA d "arm" (.jlist [.s "arm_suspended"])).1 with
  | jlist arms =>
    simp only [stepSuspCheck, hv] at h
    cases hr : armsAllSuspended arms with
    | error e => rw [hr] at h; exact absurd h (by simp [Bind.bind, Except.bind])
    | ok br =>
      rw [hr] at h
      simp only [Bind.bind, Except.bind, Except.ok.injEq] at h
      have hb : br.1 = false := by
        have := congrArg (·.1) h; simpa using this.symm
      have hd : d' = setA (setdefaultA d "arm" (.jlist [.s "arm_suspended"])).2.1 "arm"
          (.jlist br.2) := by
        have := congrArg (·.2.1) h; simpa using this.symm
      subst hd
      rw [setA_lookup_self]
      simp only
      rw [armsAllSuspended_all arms br.1 br.2 (by rw [hr]), hb]
      rfl
  | jdict kvs =>
    by_cases hk : kvs.isEmpty
    · simp [stepSuspCheck, hv, hk] at h
    · simp [stepSuspCheck, hv, hk] at h
  | s str =>
    by_cases hk : str.isEmpty
    · simp [stepSuspCheck, hv, hk] at h
    · simp [stepSuspCheck, hv, hk] at h
  | n i => simp [stepSuspCheck, hv] at h

lemma levelOf_append_match (xs : List PElem) (pk : PElem) :
    levelOf (xs ++ [pk, .ks "match"]) = some "match" := by
  simp [levelOf, List.reverse_append]

lemma ownerKeyOf_append (xs : List PElem) (pk : PElem) :
    ownerKeyOf (xs ++ [pk, .ks "match"]) = xs.getLast? := by
  unfold ownerKeyOf
  rw [show xs ++ [pk, PElem.ks "match"] = (xs ++ [pk]) ++ [PElem.ks "match"] by simp,
    List.dropLast_concat, List.dropLast_concat]

lemma suspensionFilter_arm (cur cur' : List (String × JVal)) (ins : Bool)
    (h : suspensionFilter false (.ks "arm") cur = .ok (false, cur', ins)) :
    flagNotY cur' "arm_suspended" = true := by
  unfold suspensionFilter at h
  rw [if_pos rfl, if_neg (by simp)] at h
  exact suspFlagCheck_not_susp cur cur' "arm_suspended" ins h

lemma suspensionFilter_dose (cur cur' : List (String × JVal)) (ins : Bool)
    (h : suspensionFilter false (.ks "dose") cur = .ok (false, cur', ins)) :
    flagNotY cur' "level_suspended" = true := by
  unfold suspensionFilter at h
  rw [if_neg (by simp), if_pos rfl, if_neg (by simp)] at h
  exact suspFlagCheck_not_susp cur cur' "level_suspended" ins h

lemma suspensionFilter_step (cur cur' : List (String × JVal)) (ins : Bool)
    (h : suspensionFilter false (.ks "step") cur = .ok (false, cur', ins)) :
    (match lookupA cur' "arm" with
     | some (.jlist arms) => !(arms.all armSuspY)
     | _ => false) = true := by
  unfold suspensionFilter at h
  rw [if_neg (by simp), if_neg (by simp), if_pos rfl, if_neg (by simp)] at h
  exact stepSuspCheck_not_susp cur cur' ins h

/-- The clause let through by the suspension filter under
`match_on_closed = false` is owned by a non-suspended entity. -/
lemma notSuspendedOwner_of_filter (lastE : PElem) (v : JVal) (path : List PElem) (pk : PElem)
    (cur cur' : List (String × JVal)) (ins : Bool)
    (hlast : path.getLast? = some lastE)
    (hf : suspensionFilter false lastE cur = .ok (false, cur', ins)) :
    notSuspendedOwner ⟨v, path ++ [pk, .ks "match"], "match", cur'⟩ = true := by
  simp only [notSuspendedOwner, ownerKeyOf_append, hlast]
  rw [Bool.and_eq_true, Bool.and_eq_true]
  refine ⟨⟨?_, ?_⟩, ?_⟩
  · by_cases ha : lastE = .ks "arm"
    · rw [if_pos (by rw [ha])]
      exact suspensionFilter_arm cur cur' ins (ha ▸ hf)
    · rw [if_neg (fun hc => ha (Option.some.inj hc))]
  · by_cases hd : lastE = .ks "dose"
    · rw [if_pos (by rw [hd])]
      exact suspensionFilter_dose cur cur' ins (hd ▸ hf)
    · rw [if_neg (fun hc => hd (Option.some.inj hc))]
  · by_cases hs : lastE = .ks "step"
    · rw [if_pos (by rw [hs])]
      exact suspensionFilter_step cur cur' ins (hs ▸ hf)
    · rw [if_neg (fun hc => hs (Option.some.inj hc))]

/-- Invariant of the entry loop: every yielded clause has level `"match"`
and, when `match_on_closed` is false, a non-suspended owner. -/
lemma processEntries_inv (moc : Bool) (path : List PElem) (pk : PElem) :
    ∀ (entries cur : List (String × JVal)) (mtd : Bool),
    ∀ m ∈ (processEntries moc path pk entries cur mtd).1,
      m.match_clause_level = "match" ∧
      (moc = false → notSuspendedOwner m = true) := by
  intro entries
  induction entries with
  | nil => intro cur mtd m hm; simp [processEntries] at hm
  | cons e rest ih =>
    intro cur mtd m hm
    rw [processEntries] at hm
    cases mtd with
    | true => simp at hm
    | false =>
      simp only [Bool.false_eq_true, if_false] at hm
      by_cases hk : e.1 = "match"
      · simp only [hk, if_true] at hm
        cases hlast : path.getLast? with
        | none => simp [hlast] at hm
        | some lastE =>
          simp only [hlast] at hm
          cases hf : suspensionFilter moc lastE cur with
          | error e' => simp [hf] at hm
          | ok res =>
            obtain ⟨susp, cur', ins⟩ := res
            simp only [hf] at hm
            cases susp with
            | true =>
              simp only [if_true] at hm
              exact ih cur' ins m hm
            | false =>
              simp only [Bool.false_eq_true, if_false] at hm
              rw [levelOf_append_match] at hm
              simp only [List.mem_cons] at hm
              rcases hm with hm | hm
              · subst hm
                refine ⟨rfl, fun hmoc => ?_⟩
                subst hmoc
                exact notSuspendedOwner_of_filter lastE e.2 path pk cur cur' ins hlast hf
              · exact ih cur' ins m hm
      · simp only [hk, if_false] at hm
        exact ih cur false m hm

/-- Invariant of the extraction worklist loop. -/
lemma extractLoop_inv (moc : Bool) :
    ∀ (fuel : Nat) (stk : List (List PElem × PElem × JVal)),
    ∀ m ∈ (extractLoop moc fuel stk).1,
      m.match_clause_level = "match" ∧
      (moc = false → notSuspendedOwner m = true) := by
  intro fuel
  induction fuel with
  | zero =>
    intro stk m hm
    cases stk with
    | nil => simp [extractLoop] at hm
    | cons it stk' => simp [extractLoop] at hm
  | succ fuel ih =>
    intro stk m hm
    cases stk with
    | nil => simp [extractLoop] at hm
    | cons it stk' =>
      obtain ⟨path, pk, v⟩ := it
      cases v with
      | jdict entries =>
        simp only [extractLoop] at hm
        cases he : (processEntries moc path pk entries entries false).2.2.2 with
        | some e =>
          rw [he] at hm
          exact processEntries_inv moc path pk entries entries false m hm
        | none =>
          rw [he] at hm
          simp only [List.mem_append] at hm
          rcases hm with hm | hm
          · exact processEntries_inv moc path pk entries entries false m hm
          · exact ih _ m hm
      | jlist vs =>
        simp only [extractLoop] at hm
        exact ih _ m hm
      | s str =>
        simp only [extractLoop] at hm
        exact ih _ m hm
      | n i =>
        simp only [extractLoop] at hm
        exact ih _ m hm

/-- Invariant of `extract_match_clauses_from_trial`: every yielded clause
carries level `"match"`, and with `match_on_closed = false` none is owned by
a suspended arm, dose or step. -/
lemma extract_inv (moc : Bool) (fuel : Nat) (trial : List (String × JVal)) :
    ∀ m ∈ (extract_match_clauses_from_trial moc fuel trial).1,
      m.match_clause_level = "match" ∧
      (moc = false → notSuspendedOwner m = true) := by
  intro m hm
  exact extractLoop_inv moc fuel _ m hm

/-- C4. The claim says the emitted `match_clause_level` equals the
deepest non-integer ancestor key of the `match` keyword, one of `step`,
`arm`, `dose` or top-level.  The code computes the level from `parent_path`
*after* appending the `'match'` key itself (`matchengine.py` lines 193-194),
so the deepest non-integer element is always the literal `"match"`: every
emitted clause carries level `"match"`, and in particular the clause of
`armTrial` — owned by an arm, for which the claim requires level `"arm"` —
carries `"match"`. -/
theorem C4_match_clause_level_always_match :
    (∀ (moc : Bool) (fuel : Nat) (trial : List (String × JVal)),
      ∀ m ∈ (extract_match_clauses_from_trial moc fuel trial).1,
        m.match_clause_level = "match") ∧
    extract_match_clauses_from_trial false 100 armTrial =
      ([⟨.jlist [], armClausePath, "match",
         [("arm_suspended", .s "n"), ("match", .jlist [])]⟩], .done) ∧
    ∀ m ∈ (extract_match_clauses_from_trial false 100 armTrial).1,
      m.match_clause_level ≠ "step" ∧ m.match_clause_level ≠ "arm" ∧
      m.match_clause_level ≠ "dose" ∧ m.match_clause_level ≠ "top-level" := by
  refine ⟨fun moc fuel trial m hm => (extract_inv moc fuel trial m hm).1, by decide, by decide⟩

/-- Closed instance of C4's universal part at a concrete emitted clause. -/
theorem C4_match_clause_level_always_match_witness :
    (⟨.jlist [], armClausePath, "match",
      [("arm_suspended", .s "n"), ("match", .jlist [])]⟩ :
        YieldedMatchClause).match_clause_level = "match" :=
  C4_match_clause_level_always_match.1 false 100 armTrial _ (by decide)

/-- C7. With `match_on_closed = false` no emitted clause is owned by a
suspended arm (`arm_suspended ~ "y"`), dose (`level_suspended ~ "y"`) or
step (every arm suspended), flags comparing case-insensitively after
trimming and defaulting to `"n"` when missing; with `match_on_closed =
true` the suspended arm's clause is emitted.  Concretely: the arm with
flag `" Y "` emits nothing under `false` and its clause under `true`, and
the arm with no flag at all emits its clause (the missing flag defaults
to `"n"`). -/
theorem C7_suspension_filter :
    (∀ (fuel : Nat) (trial : List (String × JVal)),
      ∀ m ∈ (extract_match_clauses_from_trial false fuel trial).1,
        notSuspendedOwner m = true) ∧
    extract_match_clauses_from_trial false 100 suspendedArmTrial = ([], .done) ∧
    extract_match_clauses_from_trial true 100 suspendedArmTrial =
      ([⟨suspClauseVal, armClausePath, "match",
         [("arm_suspended", .s " Y "), ("match", suspClauseVal)]⟩], .done) ∧
    (extract_match_clauses_from_trial false 100 noFlagArmTrial).1 =
      [⟨.jlist [], armClausePath, "match",
        [("match", .jlist []), ("arm_suspended", .s "n")]⟩] := by
  refine ⟨fun fuel trial m hm => (extract_inv false fuel trial m hm).2 rfl,
    by decide, by decide, by decide⟩

/-- Closed instance of C7's universal part at a concrete emitted clause. -/
theorem C7_suspension_filter_witness :
    notSuspendedOwner ⟨.jlist [], armClausePath, "match",
      [("match", .jlist []), ("arm_suspended", .s "n")]⟩ = true :=
  C7_suspension_filter.1 100 noFlagArmTrial _ (by decide)

/-- C8 counterexample.  The claim says translation plus id injection of
`brafClause` yields one path whose query holds exactly the two-fragment
genomic AND-list `[{HUGO_SYMBOL: BRAF}, {CLINICAL_ID: {$in: ids}}]` and no
clinical fragment.  At `ids = [1, 2]` the produced query has a clinical
fragment (`add_ids_to_query` line 295 appends through the `defaultdict`,
creating the key), and its genomic list is the single merged fragment
`{HUGO_SYMBOL: BRAF, CLINICAL_ID: {$in: ids}}` (line 299 assigns the join
field inside the existing fragment), not the claimed two-fragment list. -/
theorem C8_counterexample :
    translateAndInject 100 brafClause (some [.n 1, .n 2]) =
      .ok [[brafInjected [.n 1, .n 2]]] ∧
    lookupA (brafInjected [.n 1, .n 2]) "clinical" ≠ none ∧
    lookupA (brafInjected [.n 1, .n 2]) "genomic" ≠
      some [[("HUGO_SYMBOL", .eq (.s "BRAF"))], [("CLINICAL_ID", .isIn [.n 1, .n 2])]] :=
  ⟨by decide, by decide, by decide⟩

/-- C8 amended.  For the single-leaf genomic clause, translation
followed by id injection with any non-null id list produces exactly one
path with one query: its genomic list is the single AND-fragment
`{HUGO_SYMBOL: "BRAF", CLINICAL_ID: {$in: ids}}` (the join-field condition
merged into the translated fragment) and its clinical list is the injected
`[{_id: {$in: ids}}]`. -/
theorem C8_amended (ids : List JVal) :
    translateAndInject 100 brafClause (some ids) = .ok [[brafInjected ids]] := rfl

/-- C3.  `Cache.__init__` declares no parameters beyond `self` while
`find_matches` line 73 passes six positional arguments, and the
`MatchClauseData` dataclass declares six required fields while the
extractor's yield passes four: both calls raise `TypeError` under Python
call semantics.  Hence `find_matches` raises `TypeError` at the `Cache`
construction, before any trial is processed and before any value is
yielded, for every input; and any extraction run that reaches a yield
raises `TypeError` there, yielding nothing. -/
theorem C3_constructor_arity_mismatch :
    pyConstructorCall Cache_init_params 6 = .error .typeError ∧
    pyConstructorCall MatchClauseData_fields 4 = .error .typeError ∧
    (∀ (db : MongoDB) (tr : Transformer) (fuel : Nat)
       (trials : List (List (String × JVal))) (ids : Option (List JVal)) (moc : Bool),
      find_matches_model db tr fuel trials ids moc = .error .typeError) ∧
    (∀ (moc : Bool) (fuel : Nat) (trial : List (String × JVal)),
      (extract_match_clauses_from_trial moc fuel trial).1 ≠ [] →
      extractChecked moc fuel trial = ([], .err .typeError)) := by
  refine ⟨rfl, rfl, fun db tr fuel trials ids moc => rfl, fun moc fuel trial h => ?_⟩
  unfold extractChecked
  rw [if_neg (by simpa [List.isEmpty_iff] using h)]

/-- Closed instance of C3's extraction part: the arm trial's traversal
reaches a yield, so the typed extraction raises `TypeError` with no
clauses. -/
theorem C3_constructor_arity_mismatch_witness :
    extractChecked false 100 armTrial = ([], .err .typeError) :=
  C3_constructor_arity_mismatch.2.2.2 false 100 armTrial (by decide)

/-- C10.  A query list whose first node carries no clinical entry (as a
genomic-only path is left when id injection is disabled by a null id list)
makes `run_query` emit nothing at all: `execute_clinical_query` falls
through and returns no id set without touching the database, and `runNodes`
treats the absent result as empty and returns at once — the single node
record shows no clinical find, no genomic find, no hydration, no write and
no emission, and the cache is untouched. -/
theorem C10_missing_clinical_short_circuits :
    ∀ (db : MongoDB) (tr : Transformer) (q : MCQuery) (rest : List MCQuery)
      (cids : List JVal) (ar : AllResults) (cache : Cache),
      lookupA q tr.CLINICAL = none →
      execute_clinical_query db tr q = .ok (none, none) ∧
      runNodes db tr (q :: rest) cids ar cache =
        .ok ([⟨none, none, [], [], none, [], []⟩], cache) := by
  intro db tr q rest cids ar cache h
  have h1 : execute_clinical_query db tr q = .ok (none, none) := by
    unfold execute_clinical_query
    rw [h]
  refine ⟨h1, ?_⟩
  simp only [runNodes, h1, Bind.bind, Except.bind]

/-- Closed instance of C10 at a concrete genomic-only query. -/
theorem C10_missing_clinical_short_circuits_witness :
    runNodes ⟨[], []⟩ theTransformer [[("genomic", [[("GENE", .eq (.s "A"))]])]] [] [] [] =
      .ok ([⟨none, none, [], [], none, [], []⟩], []) :=
  (C10_missing_clinical_short_circuits ⟨[], []⟩ theTransformer
    [("genomic", [[("GENE", .eq (.s "A"))]])] [] [] [] [] (by decide)).2

lemma wfNoOrEntry_or (v : JVal) : wfNoOrEntry "or" v = false := by
  cases v <;> rfl

lemma wfNoOrEntry_and (v : JVal) (h : wfNoOrEntry "and" v = true) :
    ∃ vs, v = .jlist vs ∧ wfNoOrList vs = true := by
  cases v with
  | jlist vs =>
    refine ⟨vs, rfl, ?_⟩
    rw [show wfNoOrEntry "and" (.jlist vs) = wfNoOrList vs from by
      rw [show wfNoOrEntry "and" (JVal.jlist vs) =
        (if ("and" : String) = "or" then false
         else if ("and" : String) = "and" then wfNoOrList vs else true) from rfl]
      rw [if_neg (by decide), if_pos rfl]] at h
    exact h
  | s str => rw [show wfNoOrEntry "and" (JVal.s str) = false from rfl] at h; simp at h
  | n i => rw [show wfNoOrEntry "and" (JVal.n i) = false from rfl] at h; simp at h
  | jdict kvs => rw [show wfNoOrEntry "and" (JVal.jdict kvs) = false from rfl] at h; simp at h

lemma wfNoOrList_mem (vs : List JVal) (h : wfNoOrList vs = true) :
    ∀ v ∈ vs, wfNoOrItem v = true := by
  induction vs with
  | nil => intro v hv; simp at hv
  | cons w ws ih =>
    intro v hv
    rw [show wfNoOrList (w :: ws) = (wfNoOrItem w && wfNoOrList ws) from rfl,
      Bool.and_eq_true] at h
    rcases List.mem_cons.mp hv with rfl | hv
    · exact h.1
    · exact ih h.2 v hv

lemma appendCrit_root (cs : CriteriaList) (c : Criterion) :
    appendCrit [⟨0, none, false, cs⟩] 0 c = [⟨0, none, false, cs ++ [c]⟩] := by
  simp [appendCrit]

lemma processBuildEntries_noOr :
    ∀ (entries orig : List (String × JVal)) (cs : CriteriaList) (nid : Nat),
    wfNoOrEntries entries = true →
    ∃ cs' pushes,
      processBuildEntries 0 false orig entries [⟨0, none, false, cs⟩] nid =
        .ok ([⟨0, none, false, cs'⟩], nid, pushes) ∧
      ∀ p ∈ pushes, p.1 = 0 ∧ wfNoOrItem p.2 = true := by
  intro entries
  induction entries with
  | nil =>
    intro orig cs nid _
    exact ⟨cs, [], rfl, by simp⟩
  | cons e rest ih =>
    intro orig cs nid hwf
    obtain ⟨k, v⟩ := e
    rw [show wfNoOrEntries ((k, v) :: rest) = (wfNoOrEntry k v && wfNoOrEntries rest) from rfl,
      Bool.and_eq_true] at hwf
    obtain ⟨hhead, hrest⟩ := hwf
    by_cases hor : k = "or"
    · rw [hor, wfNoOrEntry_or] at hhead
      exact absurd hhead (by simp)
    · by_cases hand : k = "and"
      · subst hand
        obtain ⟨vs, rfl, hvs⟩ := wfNoOrEntry_and v hhead
        obtain ⟨cs', pushes, hres, hpush⟩ := ih orig cs nid hrest
        refine ⟨cs', vs.map (fun it => ((0 : Nat), it)) ++ pushes, ?_, ?_⟩
        · rw [processBuildEntries]
          rw [if_pos rfl]
          simp only [iterItems, Bind.bind, Except.bind, hres]
        · intro p hp
          rw [List.mem_append] at hp
          rcases hp with hp | hp
          · obtain ⟨it, hit, rfl⟩ := List.mem_map.mp hp
            exact ⟨rfl, wfNoOrList_mem vs hvs it hit⟩
          · exact hpush p hp
      · obtain ⟨cs', pushes, hres, hpush⟩ := ih orig (cs ++ [[(k, v)]]) nid hrest
        refine ⟨cs', pushes, ?_, hpush⟩
        rw [processBuildEntries]
        rw [if_neg hand, if_neg hor]
        simp only [Bool.false_eq_true, if_false, appendCrit_root, hres]

lemma node?_single_root (cs : CriteriaList) :
    MatchTree.node? ⟨[⟨0, none, false, cs⟩]⟩ 0 = some ⟨0, none, false, cs⟩ := rfl

lemma buildLoop_noOr :
    ∀ (fuel : Nat) (stk : List (Nat × JVal)) (cs : CriteriaList) (nid : Nat) (t : MatchTree),
    (∀ p ∈ stk, p.1 = 0 ∧ wfNoOrItem p.2 = true) →
    buildLoop fuel stk [⟨0, none, false, cs⟩] nid = .done t →
    ∃ cs', t = ⟨[⟨0, none, false, cs'⟩]⟩ := by
  intro fuel
  induction fuel with
  | zero =>
    intro stk cs nid t hstk hdone
    cases stk with
    | nil => exact ⟨cs, (BuildEnd.done.inj hdone).symm⟩
    | cons it stk' => simp [buildLoop] at hdone
  | succ fuel ih =>
    intro stk cs nid t hstk hdone
    cases stk with
    | nil => exact ⟨cs, (BuildEnd.done.inj hdone).symm⟩
    | cons it stk' =>
      obtain ⟨pid, v⟩ := it
      obtain ⟨hpid, hwf⟩ := hstk (pid, v) (List.mem_cons_self _ _)
      subst hpid
      cases v with
      | jdict entries =>
        rw [show wfNoOrItem (.jdict entries) = wfNoOrEntries entries from rfl] at hwf
        obtain ⟨cs', pushes, hres, hpush⟩ := processBuildEntries_noOr entries entries cs nid hwf
        rw [buildLoop, node?_single_root] at hdone
        simp only [Option.map_some', Option.getD_some, hres] at hdone
        refine ih _ cs' nid t ?_ hdone
        intro p hp
        rw [List.mem_append] at hp
        rcases hp with hp | hp
        · exact hpush p (List.mem_reverse.mp hp)
        · exact hstk p (List.mem_cons_of_mem _ hp)
      | s str => exact absurd hwf (by simp [wfNoOrItem])
      | n i => exact absurd hwf (by simp [wfNoOrItem])
      | jlist l => exact absurd hwf (by simp [wfNoOrItem])

lemma get_match_paths_single_root (cs : CriteriaList) :
    get_match_paths ⟨[⟨0, none, false, cs⟩]⟩ = [[cs]] := rfl

lemma singleLabelLeaf_inv (v : JVal) (h : singleLabelLeaf v = true) :
    ∃ k w, v = .jdict [(k, w)] ∧ k ≠ "and" ∧ k ≠ "or" := by
  cases v with
  | jdict kvs =>
    match kvs with
    | [] => simp [singleLabelLeaf] at h
    | [(k, w)] =>
      simp only [singleLabelLeaf, Bool.and_eq_true, Bool.not_eq_eq_eq_not, beq_iff_eq] at h
      exact ⟨k, w, rfl, by simpa using h.1, by simpa using h.2⟩
    | e1 :: e2 :: r => simp [singleLabelLeaf] at h
  | s str => simp [singleLabelLeaf] at h
  | n i => simp [singleLabelLeaf] at h
  | jlist l => simp [singleLabelLeaf] at h

lemma node?_orTree (ch : List TNode) :
    MatchTree.node? ⟨[⟨0, none, false, []⟩, ⟨1, some 0, true, []⟩] ++ ch⟩ 1 =
      some ⟨1, some 0, true, []⟩ := rfl

lemma processBuildEntries_leaf (k : String) (v : JVal) (ns : List TNode) (nid : Nat)
    (hand : k ≠ "and") (hor : k ≠ "or") :
    processBuildEntries 1 true [(k, v)] [(k, v)] ns nid =
      .ok (ns ++ [⟨nid, some 1, false, [[(k, v)]]⟩], nid + 1, []) := by
  rw [processBuildEntries]
  rw [if_neg hand, if_neg hor, if_pos rfl]
  simp only [processBuildEntries, Bind.bind, Except.bind]

lemma buildLoop_orLeaves :
    ∀ (rem : List JVal) (fuel : Nat) (ch : List TNode) (nid : Nat) (t : MatchTree),
    (∀ v ∈ rem, singleLabelLeaf v = true) →
    (∀ c ∈ ch, c.parent = some 1 ∧ 2 ≤ c.nid) →
    2 ≤ nid →
    buildLoop fuel (rem.map fun v => ((1 : Nat), v))
      ([⟨0, none, false, []⟩, ⟨1, some 0, true, []⟩] ++ ch) nid = .done t →
    ∃ ch', t = ⟨[⟨0, none, false, []⟩, ⟨1, some 0, true, []⟩] ++ ch'⟩ ∧
      ch'.length = ch.length + rem.length ∧
      ∀ c ∈ ch', c.parent = some 1 ∧ 2 ≤ c.nid := by
  intro rem
  induction rem with
  | nil =>
    intro fuel ch nid t _ hch _ hdone
    refine ⟨ch, ?_, by simp, hch⟩
    cases fuel with
    | zero => exact (BuildEnd.done.inj hdone).symm
    | succ fuel => exact (BuildEnd.done.inj hdone).symm
  | cons v rem ih =>
    intro fuel ch nid t hrem hch hnid hdone
    cases fuel with
    | zero => simp [buildLoop] at hdone
    | succ fuel =>
      obtain ⟨k, w, rfl, hand, hor⟩ :=
        singleLabelLeaf_inv v (hrem v (List.mem_cons_self _ _))
      rw [List.map_cons, buildLoop, node?_orTree] at hdone
      simp only [Option.map_some', Option.getD_some,
        processBuildEntries_leaf k w _ nid hand hor] at hdone
      rw [List.append_assoc] at hdone
      simp only [List.reverse_nil, List.nil_append] at hdone
      obtain ⟨ch', hteq, hlen, hch'⟩ := ih fuel (ch ++ [⟨nid, some 1, false, [[(k, w)]]⟩])
        (nid + 1) t
        (fun u hu => hrem u (List.mem_cons_of_mem _ hu))
        (fun c hc => by
          rcases List.mem_append.mp hc with hc | hc
          · exact hch c hc
          · rcases List.mem_singleton.mp hc with rfl
            exact ⟨rfl, hnid⟩)
        (by omega) hdone
      refine ⟨ch', hteq, ?_, hch'⟩
      simp only [List.length_append, List.length_singleton, List.length_cons, List.length_nil] at hlen ⊢
      omega

lemma get_match_paths_orTree (ch : List TNode) (hne : ch ≠ [])
    (hch : ∀ c ∈ ch, c.parent = some 1 ∧ 2 ≤ c.nid) :
    (get_match_paths ⟨[⟨0, none, false, []⟩, ⟨1, some 0, true, []⟩] ++ ch⟩).length =
      ch.length := by
  set t : MatchTree := ⟨[⟨0, none, false, []⟩, ⟨1, some 0, true, []⟩] ++ ch⟩ with ht
  have hnodes : t.nodes =
      (⟨0, none, false, []⟩ : TNode) :: (⟨1, some 0, true, []⟩ : TNode) :: ch := rfl
  have hdeg0 : outDegree t 0 = 1 := by
    unfold outDegree
    rw [hnodes]
    simp only [List.filter_cons]
    rw [List.filter_eq_nil_iff.mpr (fun c hc => by simp [(hch c hc).1])]
    simp
  have hdeg1 : outDegree t 1 = ch.length := by
    unfold outDegree
    rw [hnodes]
    simp only [List.filter_cons]
    rw [List.filter_eq_self.mpr (fun c hc => by simp [(hch c hc).1])]
    simp
  have hdegc : ∀ c ∈ ch, outDegree t c.nid = 0 := by
    intro c hc
    unfold outDegree
    rw [hnodes]
    rw [List.filter_eq_nil_iff.mpr ?_]
    · rfl
    · intro d hd
      rcases List.mem_cons.mp hd with rfl | hd
      · simp
      · rcases List.mem_cons.mp hd with rfl | hd
        · have := (hch c hc).2
          simp only [decide_eq_true_eq]
          intro hcontra
          have h0 : 0 = c.nid := Option.some.inj hcontra
          omega
        · have hd1 := (hch d hd).1
          have hc2 := (hch c hc).2
          simp only [hd1, decide_eq_true_eq]
          intro hcontra
          have h1 : 1 = c.nid := Option.some.inj hcontra
          omega
  unfold get_match_paths
  rw [List.length_map, List.length_map, hnodes]
  rw [List.filter_cons_of_neg (by simp [hdeg0])]
  rw [List.filter_cons_of_neg (by
    simp only [hdeg1]
    simpa [List.length_eq_zero] using hne)]
  rw [List.filter_eq_self.mpr (fun c hc => by simp [hdegc c hc])]

lemma processBuildEntries_or_single (leaves : List JVal) (nid : Nat) (cs : CriteriaList) :
    processBuildEntries 0 false [("or", .jlist leaves)] [("or", .jlist leaves)]
      [⟨0, none, false, cs⟩] nid =
      .ok ([⟨0, none, false, cs⟩, ⟨nid, some 0, true, []⟩], nid + 1,
        leaves.map fun it => (nid, it)) := by
  rw [processBuildEntries]
  rw [if_neg (by decide), if_pos rfl]
  simp only [iterItems, Bind.bind, Except.bind, processBuildEntries, List.append_nil]
  rfl

/-- C5.  Round-trip of tree construction and path enumeration: (a) the
empty clause builds the tree with only the root and enumeration yields the
single path `[root.criteria_list]`; (b) a clause containing no `or`
operator always yields exactly one path; (c) a clause that is one `or` over
`k` single-label leaf criteria yields exactly one path per `or` branch. -/
theorem C5_tree_path_roundtrip :
    (∀ fuel : Nat,
      create_match_tree fuel [] = .done ⟨[⟨0, none, false, []⟩]⟩ ∧
      get_match_paths ⟨[⟨0, none, false, []⟩]⟩ = [[[]]]) ∧
    (∀ (fuel : Nat) (clause : List JVal) (t : MatchTree),
      clause.all wfNoOrItem = true →
      create_match_tree fuel clause = .done t →
      (get_match_paths t).length = 1) ∧
    (∀ (fuel : Nat) (leaves : List JVal) (t : MatchTree),
      leaves ≠ [] →
      leaves.all singleLabelLeaf = true →
      create_match_tree fuel [.jdict [("or", .jlist leaves)]] = .done t →
      (get_match_paths t).length = leaves.length) := by
  refine ⟨?_, ?_, ?_⟩
  · intro fuel
    exact ⟨by cases fuel <;> rfl, rfl⟩
  · intro fuel clause t hwf hdone
    unfold create_match_tree at hdone
    have hstk : ∀ p ∈ ((clause.map fun it => ((0 : Nat), it)).reverse),
        p.1 = 0 ∧ wfNoOrItem p.2 = true := by
      intro p hp
      rw [List.mem_reverse] at hp
      obtain ⟨it, hit, rfl⟩ := List.mem_map.mp hp
      exact ⟨rfl, List.all_eq_true.mp hwf it hit⟩
    obtain ⟨cs', rfl⟩ := buildLoop_noOr fuel _ [] 1 t hstk hdone
    simp [get_match_paths_single_root]
  · intro fuel leaves t hne hwf hdone
    unfold create_match_tree at hdone
    cases fuel with
    | zero => simp [buildLoop] at hdone
    | succ fuel =>
      rw [show ((([JVal.jdict [("or", JVal.jlist leaves)]].map
          fun it => ((0 : Nat), it)).reverse) =
          [((0 : Nat), JVal.jdict [("or", JVal.jlist leaves)])]) from rfl] at hdone
      rw [buildLoop, node?_single_root] at hdone
      simp only [Option.map_some', Option.getD_some, processBuildEntries_or_single] at hdone
      rw [show ([(⟨0, none, false, []⟩ : TNode), ⟨1, some 0, true, []⟩] : List TNode) =
        [(⟨0, none, false, []⟩ : TNode), ⟨1, some 0, true, []⟩] ++ [] from by simp] at hdone
      rw [show ((leaves.map fun it => ((1 : Nat), it)).reverse ++ [] =
        leaves.reverse.map fun v => ((1 : Nat), v)) from by
          rw [List.append_nil, ← List.map_reverse]] at hdone
      obtain ⟨ch', hteq, hlen, hch'⟩ := buildLoop_orLeaves leaves.reverse fuel [] 2 t
        (fun v hv => List.all_eq_true.mp hwf v (List.mem_reverse.mp hv))
        (by simp) (by omega) hdone
      subst hteq
      rw [get_match_paths_orTree ch' ?_ hch']
      · rw [hlen]
        simp
      · intro hcontra
        rw [hcontra] at hlen
        simp at hlen
        exact hne (List.length_eq_zero.mp (by omega))

/-- Closed instance of C5 at concrete inputs: a two-item conjunction gives
one path, and a three-branch `or` gives three paths. -/
theorem C5_tree_path_roundtrip_witness :
    (get_match_paths andConjTree).length = 1 ∧
    (get_match_paths threeOrTree).length = 3 :=
  ⟨C5_tree_path_roundtrip.2.1 100
      [.jdict [("and", .jlist [.jdict [("clinical", .jdict [("AGE", .s "18")])],
                               .jdict [("genomic", .jdict [("HUGO_SYMBOL", .s "EGFR")])]])]]
      andConjTree (by decide) (by decide),
   C5_tree_path_roundtrip.2.2 100
      [.jdict [("genomic", .jdict [("A", .s "1")])],
       .jdict [("genomic", .jdict [("B", .s "2")])],
       .jdict [("genomic", .jdict [("C", .s "3")])]]
      threeOrTree (by decide) (by decide) (by decide)⟩

/-- Keys of an updated accumulator: unchanged when the clinical id is
present, the new key appended otherwise. -/
lemma arAdd_keys (ar : AllResults) (cid gid : JVal) :
    (arAdd ar cid gid).map Prod.fst =
      if cid ∈ ar.map Prod.fst then ar.map Prod.fst else ar.map Prod.fst ++ [cid] := by
  induction ar with
  | nil => simp [arAdd]
  | cons p r ih =>
    obtain ⟨k, gs⟩ := p
    by_cases hk : k = cid
    · subst hk
      simp [arAdd]
    · by_cases hm : cid ∈ r.map Prod.fst
      · simp [arAdd, hk, ih, hm, Ne.symm hk]
      · simp [arAdd, hk, ih, hm, Ne.symm hk]

/-- The `arAdd` keeps the accumulator keys duplicate-free. -/
lemma arAdd_keys_nodup (ar : AllResults) (cid gid : JVal)
    (h : (ar.map Prod.fst).Nodup) : ((arAdd ar cid gid).map Prod.fst).Nodup := by
  rw [arAdd_keys]
  by_cases hm : cid ∈ ar.map Prod.fst
  · simpa [hm]
  · rw [if_neg hm]
    rw [List.nodup_append]
    refine ⟨h, List.nodup_singleton cid, ?_⟩
    intro a ha hb
    rw [List.mem_singleton] at hb
    subst hb
    exact hm ha

/-- Folding a pair list through `arAdd` keeps the keys duplicate-free. -/
lemma foldl_arAdd_keys_nodup (pairs : List (JVal × JVal)) (ar : AllResults)
    (h : (ar.map Prod.fst).Nodup) :
    ((pairs.foldl (fun a p => arAdd a p.1 p.2) ar).map Prod.fst).Nodup := by
  induction pairs generalizing ar with
  | nil => exact h
  | cons p rest ih => exact ih _ (arAdd_keys_nodup _ _ _ h)

/-- Inversion of one genomic fragment run: the new accumulator is the fold
of the result pairs, and the surviving ids are a filter of the incoming
ones. -/
lemma runGenFrag_inv (db : MongoDB) (coll jf : String) (fr : Frag)
    (cids : List JVal) (ar : AllResults) (q : List Frag) (ar' : AllResults)
    (cids' : List JVal) (h : runGenFrag db coll jf fr cids ar = .ok (q, ar', cids')) :
    ∃ pairs : List (JVal × JVal),
      ar' = pairs.foldl (fun a p => arAdd a p.1 p.2) ar ∧
      cids' = cids.filter (fun x => decide (x ∈ pairs.map Prod.fst)) := by
  rw [runGenFrag] at h
  simp only [Bind.bind, Except.bind] at h
  split at h
  · exact absurd h (by simp)
  · next pairs hpairs =>
    simp only [Except.ok.injEq, Prod.mk.injEq] at h
    exact ⟨pairs, h.2.1.symm, h.2.2.symm⟩

/-- The fragment loop keeps the accumulator keys duplicate-free. -/
lemma runFrags_keys_nodup (db : MongoDB) (coll jf : String) (frs : List Frag)
    (cids : List JVal) (ar : AllResults) (calls : List (String × List Frag))
    (snaps : List Snap) (out : GenOut)
    (h : runFrags db coll jf frs cids ar calls snaps = .ok out)
    (har : (ar.map Prod.fst).Nodup) : (out.arOf.map Prod.fst).Nodup := by
  induction frs generalizing cids ar calls snaps with
  | nil =>
    rw [runFrags] at h
    rw [← Except.ok.inj h]
    exact har
  | cons fr rest ih =>
    rw [runFrags] at h
    simp only [Bind.bind, Except.bind] at h
    split at h
    · exact absurd h (by simp)
    · next tr3 htr =>
      obtain ⟨q, ar1, cids1⟩ := tr3
      obtain ⟨pairs, har1, -⟩ := runGenFrag_inv db coll jf fr cids ar q ar1 cids1 htr
      have har1n : (ar1.map Prod.fst).Nodup := har1 ▸ foldl_arAdd_keys_nodup pairs ar har
      simp only at h
      split at h
      · rw [← Except.ok.inj h]
        exact har1n
      · exact ih _ _ _ _ h har1n

/-- The collection loop keeps the accumulator keys duplicate-free. -/
lemma runColls_keys_nodup (db : MongoDB) (tr : Transformer)
    (entries : List (String × List Frag)) (cids : List JVal) (ar : AllResults)
    (calls : List (String × List Frag)) (snaps : List Snap) (out : GenOut)
    (h : runColls db tr entries cids ar calls snaps = .ok out)
    (har : (ar.map Prod.fst).Nodup) : (out.arOf.map Prod.fst).Nodup := by
  induction entries generalizing cids ar calls snaps with
  | nil =>
    rw [runColls] at h
    rw [← Except.ok.inj h]
    exact har
  | cons e rest ih =>
    obtain ⟨coll, frs⟩ := e
    rw [runColls] at h
    split at h
    · exact ih _ _ _ _ h har
    · simp only [Bind.bind, Except.bind] at h
      split at h
      · exact absurd h (by simp)
      · next jf hjf =>
        split at h
        · exact absurd h (by simp)
        · next gout hgout =>
          cases gout with
          | stop calls' snaps' ar' =>
            simp only at h
            have := runFrags_keys_nodup db coll jf frs cids ar calls snaps _ hgout har
            rw [← Except.ok.inj h]
            exact this
          | next cids' ar' calls' snaps' =>
            simp only at h
            have := runFrags_keys_nodup db coll jf frs cids ar calls snaps _ hgout har
            exact ih _ _ _ _ h this

/-- Emission reads back exactly the accumulator keys, in order. -/
lemma emitAll_ids (cache : Cache) (ar : AllResults) (ems : List RawQueryResult)
    (h : emitAll cache ar = .ok ems) : ems.map (·.clinical_id) = ar.map Prod.fst := by
  induction ar generalizing ems with
  | nil =>
    rw [emitAll, mapE] at h
    rw [← Except.ok.inj h]
    rfl
  | cons p rest ih =>
    rw [emitAll, mapE] at h
    simp only [Bind.bind, Except.bind] at h
    split at h
    · exact absurd h (by simp)
    · next b hb =>
      split at h
      · exact absurd h (by simp)
      · next bs hbs =>
        have hb1 : b.clinical_id = p.1 := by
          split at hb
          · exact absurd hb (by simp)
          · next cd hcd =>
            split at hb
            · exact absurd hb (by simp)
            · next gds hgds =>
              rw [← Except.ok.inj hb]
        rw [← Except.ok.inj h]
        simp only [List.map_cons, hb1]
        have : emitAll cache rest = .ok bs := by rw [emitAll]; exact hbs
        rw [ih bs this]

/-- Every node record of a run from a key-duplicate-free accumulator emits
each clinical id at most once. -/
lemma runNodes_emitted_nodup (db : MongoDB) (tr : Transformer)
    (qs : List MCQuery) (cids : List JVal) (ar : AllResults) (cache : Cache)
    (recs : List NodeRec) (cacheF : Cache)
    (har : (ar.map Prod.fst).Nodup)
    (h : runNodes db tr qs cids ar cache = .ok (recs, cacheF)) :
    ∀ rec ∈ recs, (rec.emitted.map (·.clinical_id)).Nodup := by
  induction qs generalizing cids ar cache recs cacheF with
  | nil =>
    rw [runNodes] at h
    obtain ⟨h1, -⟩ := Prod.mk.inj (Except.ok.inj h)
    rw [← h1]
    intro rec hr
    exact absurd hr (List.not_mem_nil rec)
  | cons q rest ih =>
    obtain ⟨cc, cr, -, hcase⟩ := runNodes_cons_inv db tr q rest cids ar cache recs cacheF h
    rcases hcase with ⟨-, hrecs, -⟩ | ⟨-, hrecs, -⟩ |
      ⟨nI, ca, sn, ar', -, -, -, hrecs, -⟩ |
      ⟨nI, cids2, ar2, ca, sn, nc, ng, w, c2, ems, recs', -, -, hcoll, -, hem, hrest, hrecs⟩
    · subst hrecs
      intro rec hr
      rw [List.mem_singleton.mp hr]
      simp [stopRec]
    · subst hrecs
      intro rec hr
      rw [List.mem_singleton.mp hr]
      simp [stopRec]
    · subst hrecs
      intro rec hr
      rw [List.mem_singleton.mp hr]
      simp [interStopRec]
    · subst hrecs
      have har2 : (ar2.map Prod.fst).Nodup := runColls_keys_nodup db tr q _ ar [] _ _ hcoll har
      intro rec hr
      rcases List.mem_cons.mp hr with hhd | htl
      · rw [hhd]
        show (ems.map (·.clinical_id)).Nodup
        rw [emitAll_ids c2 ar2 ems hem]
        exact har2
      · exact ih cids2 ar2 c2 recs' cacheF har2 hrest rec htl

/-- C1: within one `run_query` invocation over the nodes of a path, each
node's emitted batch names every clinical id at most once.  (The per-path
uniqueness the specification states fails: emission runs inside the node
loop over the cumulative accumulator, so the ids of earlier batches are
re-emitted by later ones — see the counterexample.) -/
theorem C1_per_node_results_unique (db : MongoDB) (tr : Transformer)
    (qs : List MCQuery) (cache : Cache) (recs : List NodeRec) (cacheF : Cache)
    (h : run_query db tr qs cache = .ok (recs, cacheF)) :
    ∀ rec ∈ recs, (rec.emitted.map (·.clinical_id)).Nodup :=
  runNodes_emitted_nodup db tr qs [] [] cache recs cacheF List.nodup_nil h

/-- C1 witness: on the two-node path A the theorem applies, giving the
duplicate-freeness of the second node's batch. -/
theorem C1_per_node_results_unique_witness :
    run_query dbA theTransformer qA [] = .ok ([recA1, recA2], cacheAF) ∧
    (recA2.emitted.map (·.clinical_id)).Nodup :=
  ⟨runA_eval,
   C1_per_node_results_unique dbA theTransformer qA [] [recA1, recA2] cacheAF runA_eval
     recA2 (List.mem_cons_of_mem recA1 (List.mem_singleton.mpr rfl))⟩

/-- C1 counterexample: on path A the full emission stream of the path
carries clinical id 1 twice — a patient appears more than once in the
results of a single path. -/
theorem C1_duplicate_emission_counterexample :
    (run_query dbA theTransformer qA []).map
        (fun rc => (pathEmissions rc.1).map (·.clinical_id)) =
      .ok [.n 1, .n 1, .n 2] ∧
    ¬ ([JVal.n 1, .n 1, .n 2].Nodup) :=
  ⟨rfl, by decide⟩

lemma chainEnd_append (cur : List JVal) (l1 l2 : List Snap) :
    chainEnd cur (l1 ++ l2) = chainEnd (chainEnd cur l1) l2 := by
  induction l1 generalizing cur with
  | nil => rfl
  | cons s rest ih =>
    cases s with
    | clinAdd l => rw [List.cons_append, chainEnd, chainEnd, ih]
    | inter l => rw [List.cons_append, chainEnd, chainEnd, ih]

lemma chainDec_append (cur : List JVal) (l1 l2 : List Snap)
    (h1 : chainDec cur l1 = true) (h2 : chainDec (chainEnd cur l1) l2 = true) :
    chainDec cur (l1 ++ l2) = true := by
  induction l1 generalizing cur with
  | nil => exact h2
  | cons s rest ih =>
    cases s with
    | clinAdd l =>
      rw [chainDec, Bool.and_eq_true] at h1
      rw [chainEnd] at h2
      rw [List.cons_append, chainDec, Bool.and_eq_true]
      exact ⟨h1.1, ih l h1.2 h2⟩
    | inter l =>
      rw [chainDec, Bool.and_eq_true] at h1
      rw [chainEnd] at h2
      rw [List.cons_append, chainDec, Bool.and_eq_true]
      exact ⟨h1.1, ih l h1.2 h2⟩

/-- On an intersections-only trace the step-wise chain property is exactly
the specification's non-increase. -/
lemma chainDec_eq_nonIncreasing (cur : List JVal) (l : List Snap)
    (h : l.all Snap.isInter = true) : chainDec cur l = nonIncreasing cur l := by
  induction l generalizing cur with
  | nil => rfl
  | cons s rest ih =>
    rw [List.all_cons, Bool.and_eq_true] at h
    cases s with
    | clinAdd w => exact absurd h.1 (by rw [Snap.isInter]; simp)
    | inter w => rw [chainDec, nonIncreasing, Snap.idsOf, ih w h.2]

lemma filter_all_mem {α : Type} [DecidableEq α] (l : List α) (p : α → Bool) :
    ((l.filter p).all fun x => decide (x ∈ l)) = true := by
  rw [List.all_eq_true]
  intro x hx
  exact decide_eq_true (List.mem_of_mem_filter hx)

/-- The fragment loop appends an intersections-only, step-wise decreasing
trace, and (when it survives) leaves `clinical_ids` at the trace's end. -/
lemma runFrags_chain (db : MongoDB) (coll jf : String) (frs : List Frag)
    (cids : List JVal) (ar : AllResults) (calls : List (String × List Frag))
    (snaps : List Snap) (out : GenOut)
    (h : runFrags db coll jf frs cids ar calls snaps = .ok out) :
    ∃ d : List Snap, d.all Snap.isInter = true ∧ chainDec cids d = true ∧
      out.snapsOf = snaps ++ d ∧
      out.survivors.getD (chainEnd cids d) = chainEnd cids d := by
  induction frs generalizing cids ar calls snaps with
  | nil =>
    rw [runFrags] at h
    obtain rfl := Except.ok.inj h
    exact ⟨[], rfl, rfl, (List.append_nil snaps).symm, rfl⟩
  | cons fr rest ih =>
    rw [runFrags] at h
    simp only [Bind.bind, Except.bind] at h
    split at h
    · exact absurd h (by simp)
    · next tr3 htr =>
      obtain ⟨q, ar1, cids1⟩ := tr3
      obtain ⟨pairs, -, hfil⟩ := runGenFrag_inv db coll jf fr cids ar q ar1 cids1 htr
      have hsub : (cids1.all fun x => decide (x ∈ cids)) = true := by
        rw [hfil]; exact filter_all_mem cids _
      simp only at h
      split at h
      · obtain rfl := Except.ok.inj h
        refine ⟨[.inter cids1], by rw [List.all_cons]; simp [Snap.isInter], ?_, rfl, rfl⟩
        rw [chainDec, chainDec, hsub, Bool.and_true]
      · obtain ⟨d, hall, hdec, houtS, houtC⟩ := ih cids1 ar1 _ _ h
        refine ⟨.inter cids1 :: d, ?_, ?_, ?_, ?_⟩
        · rw [List.all_cons, hall, Bool.and_true]; rw [Snap.isInter]
        · rw [chainDec, hsub, hdec, Bool.and_true]
        · rw [houtS, List.append_cons, List.append_assoc]; simp
        · rw [show chainEnd cids (.inter cids1 :: d) = chainEnd cids1 d from rfl]
          exact houtC

/-- The collection loop appends an intersections-only, step-wise decreasing
trace. -/
lemma runColls_chain (db : MongoDB) (tr : Transformer)
    (entries : List (String × List Frag)) (cids : List JVal) (ar : AllResults)
    (calls : List (String × List Frag)) (snaps : List Snap) (out : GenOut)
    (h : runColls db tr entries cids ar calls snaps = .ok out) :
    ∃ d : List Snap, d.all Snap.isInter = true ∧ chainDec cids d = true ∧
      out.snapsOf = snaps ++ d ∧
      out.survivors.getD (chainEnd cids d) = chainEnd cids d := by
  induction entries generalizing cids ar calls snaps with
  | nil =>
    rw [runColls] at h
    obtain rfl := Except.ok.inj h
    exact ⟨[], rfl, rfl, (List.append_nil snaps).symm, rfl⟩
  | cons e rest ih =>
    obtain ⟨coll, frs⟩ := e
    rw [runColls] at h
    split at h
    · exact ih _ _ _ _ h
    · simp only [Bind.bind, Except.bind] at h
      split at h
      · exact absurd h (by simp)
      · next jf hjf =>
        split at h
        · exact absurd h (by simp)
        · next gout hgout =>
          obtain ⟨d1, hall1, hdec1, hout1S, hout1C⟩ :=
            runFrags_chain db coll jf frs cids ar calls snaps _ hgout
          cases gout with
          | stop calls' snaps' ar' =>
            simp only at h
            obtain rfl := Except.ok.inj h
            exact ⟨d1, hall1, hdec1, hout1S, rfl⟩
          | next cids' ar' calls' snaps' =>
            simp only at h
            rw [GenOut.snapsOf] at hout1S
            have hc : cids' = chainEnd cids d1 := hout1C
            obtain ⟨d2, hall2, hdec2, hout2S, hout2C⟩ := ih _ _ _ _ h
            rw [hc] at hdec2 hout2C
            refine ⟨d1 ++ d2, ?_, chainDec_append cids d1 d2 hdec1 hdec2, ?_, ?_⟩
            · rw [List.all_append, hall1, hall2]; rfl
            · rw [hout2S, hout1S, List.append_assoc]
            · rw [chainEnd_append]
              exact hout2C

/-- Every node record's snapshot trace is one clinical accumulation
followed by non-increasing intersections. -/
lemma runNodes_snaps_shape (db : MongoDB) (tr : Transformer)
    (qs : List MCQuery) (cids : List JVal) (ar : AllResults) (cache : Cache)
    (recs : List NodeRec) (cacheF : Cache)
    (h : runNodes db tr qs cids ar cache = .ok (recs, cacheF)) :
    ∀ rec ∈ recs, snapShapeOK rec.snaps = true := by
  induction qs generalizing cids ar cache recs cacheF with
  | nil =>
    rw [runNodes] at h
    obtain ⟨h1, -⟩ := Prod.mk.inj (Except.ok.inj h)
    rw [← h1]
    intro rec hr
    exact absurd hr (List.not_mem_nil rec)
  | cons q rest ih =>
    obtain ⟨cc, cr, -, hcase⟩ := runNodes_cons_inv db tr q rest cids ar cache recs cacheF h
    rcases hcase with ⟨-, hrecs, -⟩ | ⟨-, hrecs, -⟩ |
      ⟨nI, ca, sn, ar', -, -, hcoll, hrecs, -⟩ |
      ⟨nI, cids2, ar2, ca, sn, nc, ng, w, c2, ems, recs', -, -, hcoll, -, -, hrest, hrecs⟩
    · subst hrecs
      intro rec hr
      rw [List.mem_singleton.mp hr]
      rfl
    · subst hrecs
      intro rec hr
      rw [List.mem_singleton.mp hr]
      rfl
    · subst hrecs
      intro rec hr
      rw [List.mem_singleton.mp hr]
      obtain ⟨d, hall, hdec, houtS, -⟩ := runColls_chain db tr q _ ar [] _ _ hcoll
      rw [GenOut.snapsOf] at houtS
      show snapShapeOK sn = true
      rw [houtS, List.singleton_append, snapShapeOK, hall, Bool.true_and,
        ← chainDec_eq_nonIncreasing _ _ hall, hdec]
    · subst hrecs
      intro rec hr
      rcases List.mem_cons.mp hr with hhd | htl
      · rw [hhd]
        obtain ⟨d, hall, hdec, houtS, -⟩ := runColls_chain db tr q _ ar [] _ _ hcoll
        rw [GenOut.snapsOf] at houtS
        show snapShapeOK sn = true
        rw [houtS, List.singleton_append, snapShapeOK, hall, Bool.true_and,
          ← chainDec_eq_nonIncreasing _ _ hall, hdec]
      · exact ih cids2 ar2 c2 recs' cacheF hrest rec htl

/-- C2: within each node of a `run_query` invocation the snapshot trace of
`clinical_ids` is one clinical accumulation followed by genomic
intersections, each intersection a subset of its predecessor.  (Across
nodes the specification's non-increase fails: each node's clinical pass
unions new ids into the set — see the counterexample.) -/
theorem C2_clinical_ids_monotone_within_node (db : MongoDB) (tr : Transformer)
    (qs : List MCQuery) (cache : Cache) (recs : List NodeRec) (cacheF : Cache)
    (h : run_query db tr qs cache = .ok (recs, cacheF)) :
    ∀ rec ∈ recs, snapShapeOK rec.snaps = true :=
  runNodes_snaps_shape db tr qs [] [] cache recs cacheF h

/-- C2 witness: the theorem applied to the first node of path A. -/
theorem C2_clinical_ids_monotone_within_node_witness :
    run_query dbA theTransformer qA [] = .ok ([recA1, recA2], cacheAF) ∧
    snapShapeOK recA1.snaps = true :=
  ⟨runA_eval,
   C2_clinical_ids_monotone_within_node dbA theTransformer qA [] [recA1, recA2] cacheAF
     runA_eval recA1 (List.mem_cons_self recA1 [recA2])⟩

/-- C2 counterexample: on path A the trace of `clinical_ids` after the
first node's clinical pass is not non-increasing — the second node's
clinical pass grows the set from `[1]` to `[1, 2]`. -/
theorem C2_counterexample :
    (run_query dbA theTransformer qA []).map (fun rc => pathSnaps rc.1) =
      .ok [.clinAdd [.n 1], .inter [.n 1], .clinAdd [.n 1, .n 2], .inter [.n 1, .n 2]] ∧
    nonIncreasing [JVal.n 1]
      [.inter [.n 1], .clinAdd [.n 1, .n 2], .inter [.n 1, .n 2]] = false :=
  ⟨rfl, by decide⟩

/-- A node whose clinical pass produced no ids (or none at all) is the last
node processed, and it runs no genomic query, no hydration, no cache write
and no emission. -/
lemma runNodes_stop_is_last (db : MongoDB) (tr : Transformer)
    (qs : List MCQuery) (cids : List JVal) (ar : AllResults) (cache : Cache)
    (recs : List NodeRec) (cacheF : Cache)
    (h : runNodes db tr qs cids ar cache = .ok (recs, cacheF)) :
    ∀ i (hi : i < recs.length),
      ((recs.get ⟨i, hi⟩).clinResult = none ∨ (recs.get ⟨i, hi⟩).clinResult = some []) →
      i + 1 = recs.length ∧ (recs.get ⟨i, hi⟩).genCalls = [] ∧
      (recs.get ⟨i, hi⟩).hydration = none ∧ (recs.get ⟨i, hi⟩).writes = [] ∧
      (recs.get ⟨i, hi⟩).emitted = [] := by
  induction qs generalizing cids ar cache recs cacheF with
  | nil =>
    rw [runNodes] at h
    obtain ⟨h1, -⟩ := Prod.mk.inj (Except.ok.inj h)
    rw [← h1]
    intro i hi
    rw [List.length_nil] at hi
    exact absurd hi (Nat.not_lt_zero i)
  | cons q rest ih =>
    obtain ⟨cc, cr, -, hcase⟩ := runNodes_cons_inv db tr q rest cids ar cache recs cacheF h
    rcases hcase with ⟨-, hrecs, -⟩ | ⟨-, hrecs, -⟩ |
      ⟨nI, ca, sn, ar', hcr, hne, -, hrecs, -⟩ |
      ⟨nI, cids2, ar2, ca, sn, nc, ng, w, c2, ems, recs', hcr, hne, -, -, -, hrest, hrecs⟩
    · subst hrecs
      intro i hi hstop
      obtain rfl : i = 0 := by rw [List.length_singleton] at hi; omega
      exact ⟨rfl, rfl, rfl, rfl, rfl⟩
    · subst hrecs
      intro i hi hstop
      obtain rfl : i = 0 := by rw [List.length_singleton] at hi; omega
      exact ⟨rfl, rfl, rfl, rfl, rfl⟩
    · subst hrecs
      intro i hi hstop
      obtain rfl : i = 0 := by rw [List.length_singleton] at hi; omega
      rcases hstop with h1 | h1
      · exact absurd h1 (by rw [show ([interStopRec cc nI ca sn].get ⟨0, hi⟩) = interStopRec cc nI ca sn from rfl]; simp [interStopRec])
      · rw [show ([interStopRec cc nI ca sn].get ⟨0, hi⟩) = interStopRec cc nI ca sn from rfl] at h1
        exact absurd (Option.some.inj h1) hne
    · subst hrecs
      intro i hi hstop
      cases i with
      | zero =>
        rcases hstop with h1 | h1
        · exact absurd h1 (by simp)
        · exact absurd (Option.some.inj h1) hne
      | succ j =>
        have hj : j < recs'.length := by
          rw [List.length_cons] at hi
          omega
        obtain ⟨hlast, hg, hh, hw, he⟩ := ih cids2 ar2 c2 recs' cacheF hrest j hj hstop
        refine ⟨?_, hg, hh, hw, he⟩
        rw [List.length_cons]
        omega

/-- C6: a node whose clinical pass returns no id set (or an empty one) is
the last node run_query processes for its path, runs no genomic query, no
hydration and no emission.  (The specification's claim that the whole path
then emits no result fails: results of earlier nodes were already emitted
inside the loop — see the counterexample.) -/
theorem C6_empty_clinical_stops_node (db : MongoDB) (tr : Transformer)
    (qs : List MCQuery) (cache : Cache) (recs : List NodeRec) (cacheF : Cache)
    (h : run_query db tr qs cache = .ok (recs, cacheF))
    (i : Nat) (hi : i < recs.length)
    (hstop : (recs.get ⟨i, hi⟩).clinResult = none ∨ (recs.get ⟨i, hi⟩).clinResult = some []) :
    i + 1 = recs.length ∧ (recs.get ⟨i, hi⟩).genCalls = [] ∧
    (recs.get ⟨i, hi⟩).hydration = none ∧ (recs.get ⟨i, hi⟩).writes = [] ∧
    (recs.get ⟨i, hi⟩).emitted = [] :=
  runNodes_stop_is_last db tr qs [] [] cache recs cacheF h i hi hstop

/-- C6 witness: the theorem applied to the second node of path B, whose
clinical pass is empty. -/
theorem C6_empty_clinical_stops_node_witness :
    run_query dbA theTransformer qB [] = .ok ([recA1, recB2], cacheBF) ∧
    (1 + 1 = [recA1, recB2].length ∧ recB2.genCalls = [] ∧
     recB2.hydration = none ∧ recB2.writes = [] ∧ recB2.emitted = []) :=
  ⟨runB_eval,
   C6_empty_clinical_stops_node dbA theTransformer qB [] [recA1, recB2] cacheBF
     runB_eval 1 (by decide) (Or.inr rfl)⟩

/-- C6 counterexample: on path B the second node's clinical pass is empty,
yet the path has emitted the results of the first node — run_query does not
terminate "emitting no RawQueryResult". -/
theorem C6_counterexample :
    (run_query dbA theTransformer qB []).map
        (fun rc => (rc.1.map (·.clinResult), (pathEmissions rc.1).map (·.clinical_id))) =
      .ok ([some [.n 1], some []], [.n 1]) ∧
    ([JVal.n 1] ≠ ([] : List JVal)) :=
  ⟨rfl, by decide⟩

lemma ofOption_ok {ε α : Type} (e : ε) (o : Option α) (a : α)
    (h : ofOption e o = .ok a) : o = some a := by
  cases o with
  | none => exact absurd h (by rw [ofOption]; simp)
  | some x => rw [ofOption] at h; rw [Except.ok.inj h]

lemma mapE_ok_mem {ε α β : Type} (f : α → Except ε β) (l : List α) (ys : List β)
    (h : mapE f l = .ok ys) : ∀ y ∈ ys, ∃ x ∈ l, f x = .ok y := by
  induction l generalizing ys with
  | nil =>
    rw [mapE] at h
    obtain rfl := Except.ok.inj h
    intro y hy
    exact absurd hy (List.not_mem_nil y)
  | cons a r ih =>
    rw [mapE] at h
    simp only [Bind.bind, Except.bind] at h
    split at h
    · exact absurd h (by simp)
    · next b hb =>
      split at h
      · exact absurd h (by simp)
      · next bs hbs =>
        obtain rfl := Except.ok.inj h
        intro y hy
        rcases List.mem_cons.mp hy with rfl | hy'
        · exact ⟨a, List.mem_cons_self a r, hb⟩
        · obtain ⟨x, hx, hfx⟩ := ih bs hbs y hy'
          exact ⟨x, List.mem_cons_of_mem a hx, hfx⟩

/-- The id-tagging map of `hydrate`: keys are the documents' `_id`s in
order, bodies the documents themselves. -/
lemma hydrateWrites_spec (docs : List Doc) (ws : List (JVal × Doc))
    (h : mapE (fun d => do
        let i ← ofOption PyErr.keyError (lookupA d "_id")
        Except.ok (i, d)) docs = .ok ws) :
    ws.map Prod.fst = docs.filterMap (fun d => lookupA d "_id") ∧
    ws.map Prod.snd = docs := by
  induction docs generalizing ws with
  | nil =>
    rw [mapE] at h
    obtain rfl := Except.ok.inj h
    exact ⟨rfl, rfl⟩
  | cons d r ih =>
    rw [mapE] at h
    simp only [Bind.bind, Except.bind] at h
    split at h
    · exact absurd h (by simp)
    · next b hb =>
      split at h
      · exact absurd h (by simp)
      · next bs hbs =>
        obtain rfl := Except.ok.inj h
        have hid : lookupA d "_id" = some b.1 ∧ d = b.2 := by
          split at hb
          · exact absurd hb (by simp)
          · next i hi =>
            obtain rfl := Except.ok.inj hb
            exact ⟨ofOption_ok _ _ _ hi, rfl⟩
        obtain ⟨hbs1, hbs2⟩ := ih bs hbs
        constructor
        · rw [List.map_cons, List.filterMap_cons, hid.1, hbs1]
        · rw [List.map_cons, hbs2, ← hid.2]

/-- A duplicate-free projection separates the elements it is defined on. -/
lemma filterMap_nodup_inj {α β : Type} (f : α → Option β) (l : List α)
    (hn : (l.filterMap f).Nodup) (d1 : α) (h1 : d1 ∈ l) (d2 : α) (h2 : d2 ∈ l)
    (x : β) (hx1 : f d1 = some x) (hx2 : f d2 = some x) : d1 = d2 := by
  induction l with
  | nil => exact absurd h1 (List.not_mem_nil d1)
  | cons a r ih =>
    rw [List.filterMap_cons] at hn
    rcases List.mem_cons.mp h1 with rfl | h1' <;> rcases List.mem_cons.mp h2 with rfl | h2'
    · rfl
    · rw [hx1] at hn
      exact absurd (List.mem_filterMap.mpr ⟨d2, h2', hx2⟩) ((List.nodup_cons.mp hn).1)
    · rw [hx2] at hn
      exact absurd (List.mem_filterMap.mpr ⟨d1, h1', hx1⟩) ((List.nodup_cons.mp hn).1).elim
    · refine ih ?_ h1' h2'
      cases hfa : f a with
      | none => rw [hfa] at hn; exact hn
      | some v => rw [hfa] at hn; exact (List.nodup_cons.mp hn).2

lemma hasKeyA_append {κ α : Type} [DecidableEq κ] (c1 c2 : List (κ × α)) (k : κ) :
    hasKeyA (c1 ++ c2) k = (hasKeyA c1 k || hasKeyA c2 k) := by
  induction c1 with
  | nil =>
    rw [List.nil_append]
    show hasKeyA c2 k = (false || hasKeyA c2 k)
    rw [Bool.false_or]
  | cons p r ih =>
    obtain ⟨k1, v1⟩ := p
    by_cases hk : k1 = k
    · rw [List.cons_append, hasKeyA, lookupA, if_pos hk, hasKeyA, lookupA, if_pos hk]; rfl
    · rw [List.cons_append, hasKeyA, lookupA, if_neg hk, hasKeyA, lookupA, if_neg hk,
        ← hasKeyA, ← hasKeyA, ih]

lemma hasKeyA_of_mem_keys {κ α : Type} [DecidableEq κ] (c : List (κ × α)) (k : κ)
    (h : k ∈ c.map Prod.fst) : hasKeyA c k = true := by
  induction c with
  | nil => exact absurd h (List.not_mem_nil k)
  | cons p r ih =>
    rcases List.mem_cons.mp h with h1 | h1
    · rw [hasKeyA, lookupA, if_pos h1.symm]; rfl
    · by_cases hk : p.1 = k
      · rw [hasKeyA, lookupA, if_pos hk]; rfl
      · rw [hasKeyA, lookupA, if_neg hk, ← hasKeyA]; exact ih h1

lemma mem_keys_of_hasKeyA {κ α : Type} [DecidableEq κ] (c : List (κ × α)) (k : κ)
    (h : hasKeyA c k = true) : k ∈ c.map Prod.fst := by
  induction c with
  | nil => rw [hasKeyA, lookupA] at h; exact absurd h (by simp)
  | cons p r ih =>
    by_cases hk : p.1 = k
    · rw [List.map_cons, hk]; exact List.mem_cons_self k _
    · rw [hasKeyA, lookupA, if_neg hk, ← hasKeyA] at h
      exact List.mem_cons_of_mem p.1 (ih h)

lemma setA_fresh {κ α : Type} [DecidableEq κ] (c : List (κ × α)) (k : κ) (v : α)
    (h : hasKeyA c k = false) : setA c k v = c ++ [(k, v)] := by
  induction c with
  | nil => rfl
  | cons p r ih =>
    obtain ⟨k1, v1⟩ := p
    by_cases hk : k1 = k
    · rw [hasKeyA, lookupA, if_pos hk] at h
      exact absurd h (by simp)
    · rw [hasKeyA, lookupA, if_neg hk, ← hasKeyA] at h
      rw [setA, if_neg hk, List.cons_append, ih h]

lemma foldl_setA_fresh (ws : List (JVal × Doc)) (c : Cache)
    (hn : (ws.map Prod.fst).Nodup)
    (hf : ∀ k ∈ ws.map Prod.fst, hasKeyA c k = false) :
    ws.foldl (fun c2 w => setA c2 w.1 w.2) c = c ++ ws := by
  induction ws generalizing c with
  | nil => rw [List.foldl_nil, List.append_nil]
  | cons w r ih =>
    rw [List.map_cons, List.nodup_cons] at hn
    rw [List.foldl_cons, setA_fresh c w.1 w.2 (hf w.1 (by rw [List.map_cons]; exact List.mem_cons_self _ _))]
    rw [ih (c ++ [(w.1, w.2)]) hn.2 ?_]
    · rw [List.append_assoc, List.singleton_append]
    · intro k hk
      rw [hasKeyA_append]
      have h1 : hasKeyA c k = false := hf k (by rw [List.map_cons]; exact List.mem_cons_of_mem _ hk)
      have h2 : hasKeyA [(w.1, w.2)] k = false := by
        rw [hasKeyA, lookupA]
        have : w.1 ≠ k := fun he => hn.1 (he ▸ hk)
        rw [if_neg this, lookupA]
        rfl
      rw [h1, h2]
      rfl

lemma findByIds_subset (docs : List Doc) (ids : List JVal) :
    findByIds docs ids ⊆ docs := by
  rw [findByIds]
  exact fun x hx => (List.mem_filter.mp hx).1

lemma mem_findByIds (docs : List Doc) (ids : List JVal) (d : Doc) (i : JVal)
    (hd : d ∈ docs) (hi : lookupA d "_id" = some i) (hin : i ∈ ids) :
    d ∈ findByIds docs ids := by
  rw [findByIds, List.mem_filter]
  refine ⟨hd, ?_⟩
  rw [hi]
  exact decide_eq_true hin

lemma findByIds_id_in (docs : List Doc) (ids : List JVal) (d : Doc) (i : JVal)
    (hd : d ∈ findByIds docs ids) (hi : lookupA d "_id" = some i) : i ∈ ids := by
  rw [findByIds, List.mem_filter] at hd
  have := hd.2
  rw [hi] at this
  exact of_decide_eq_true this

lemma flatMap_filter_comm {α β : Type} (f : α → List β) (p : β → Bool) (l : List α) :
    (l.flatMap f).filter p = l.flatMap fun a => (f a).filter p := by
  induction l with
  | nil => rfl
  | cons a r ih => rw [List.flatMap_cons, List.flatMap_cons, List.filter_append, ih]

lemma findAnd_subset (docs : List Doc) (frs : List Frag) :
    findAnd docs frs ⊆ docs := by
  rw [findAnd]
  exact fun x hx => (List.mem_filter.mp hx).1

lemma wfdb_clin_id (db : MongoDB) (h : wfdb db = true) (d : Doc)
    (hd : d ∈ db.clinical) : (lookupA d "_id").isSome := by
  rw [wfdb] at h
  simp only [Bool.and_eq_true, List.all_eq_true] at h
  exact h.1.1.1.1.1 d hd

lemma wfdb_gen_id (db : MongoDB) (h : wfdb db = true) (d : Doc)
    (hd : d ∈ db.genomic) : (lookupA d "_id").isSome := by
  rw [wfdb] at h
  simp only [Bool.and_eq_true, List.all_eq_true] at h
  exact h.1.1.1.1.2 d hd

lemma wfdb_clin_nodup (db : MongoDB) (h : wfdb db = true) : (clinIds db).Nodup := by
  rw [wfdb] at h
  simp only [Bool.and_eq_true, List.all_eq_true, decide_eq_true_eq] at h
  exact h.1.1.1.2

lemma wfdb_gen_nodup (db : MongoDB) (h : wfdb db = true) : (genIds db).Nodup := by
  rw [wfdb] at h
  simp only [Bool.and_eq_true, List.all_eq_true, decide_eq_true_eq] at h
  exact h.1.1.2

lemma wfdb_disjoint (db : MongoDB) (h : wfdb db = true) (i : JVal)
    (h1 : i ∈ clinIds db) (h2 : i ∈ genIds db) : False := by
  rw [wfdb] at h
  simp only [Bool.and_eq_true, List.all_eq_true] at h
  have := h.1.2 i h1
  rw [Bool.not_eq_true', decide_eq_false_iff_not] at this
  exact this h2

lemma wfdb_integrity (db : MongoDB) (h : wfdb db = true) (d : Doc)
    (hd : d ∈ db.genomic) (v : JVal) (hv : lookupA d "CLINICAL_ID" = some v) :
    v ∈ clinIds db := by
  rw [wfdb] at h
  simp only [Bool.and_eq_true, List.all_eq_true] at h
  have := h.2 d hd
  rw [hv] at this
  exact of_decide_eq_true this

/-- Any value taken by the genomic-id component of an updated accumulator. -/
lemma arAdd_gids_sub (ar : AllResults) (cid gid : JVal) (x : JVal)
    (hx : x ∈ (arAdd ar cid gid).flatMap fun p => p.2) :
    (x ∈ ar.flatMap fun p => p.2) ∨ x = gid := by
  induction ar with
  | nil =>
    rw [arAdd, List.flatMap_cons, List.flatMap_nil, List.append_nil] at hx
    exact Or.inr (List.mem_singleton.mp hx)
  | cons p r ih =>
    obtain ⟨k, gs⟩ := p
    by_cases hk : k = cid
    · subst hk
      rw [arAdd, if_pos rfl, List.flatMap_cons] at hx
      rcases List.mem_append.mp hx with h1 | h1
      · by_cases hg : gid ∈ gs
        · rw [if_pos hg] at h1
          exact Or.inl (by rw [List.flatMap_cons]; exact List.mem_append.mpr (Or.inl h1))
        · rw [if_neg hg] at h1
          rcases List.mem_append.mp h1 with h2 | h2
          · exact Or.inl (by rw [List.flatMap_cons]; exact List.mem_append.mpr (Or.inl h2))
          · exact Or.inr (List.mem_singleton.mp h2)
      · exact Or.inl (by rw [List.flatMap_cons]; exact List.mem_append.mpr (Or.inr h1))
    · rw [arAdd, if_neg hk, List.flatMap_cons] at hx
      rcases List.mem_append.mp hx with h1 | h1
      · exact Or.inl (by rw [List.flatMap_cons]; exact List.mem_append.mpr (Or.inl h1))
      · rcases ih h1 with h2 | h2
        · exact Or.inl (by rw [List.flatMap_cons]; exact List.mem_append.mpr (Or.inr h2))
        · exact Or.inr h2

/-- The `arAdd` keeps the flattened genomic ids duplicate-free when the new id
can only live under the new key. -/
lemma arAdd_flat_nodup (ar : AllResults) (cid gid : JVal)
    (hkn : (ar.map Prod.fst).Nodup)
    (hflat : (ar.flatMap fun p => p.2).Nodup)
    (hfresh : ∀ p ∈ ar, p.1 ≠ cid → gid ∉ p.2) :
    ((arAdd ar cid gid).flatMap fun p => p.2).Nodup := by
  induction ar with
  | nil =>
    rw [arAdd, List.flatMap_cons, List.flatMap_nil, List.append_nil]
    exact List.nodup_singleton gid
  | cons p r ih =>
    obtain ⟨k, gs⟩ := p
    rw [List.flatMap_cons] at hflat
    rw [List.map_cons, List.nodup_cons] at hkn
    obtain ⟨hgs, hrest, hdisj⟩ := List.nodup_append.mp hflat
    by_cases hk : k = cid
    · subst hk
      rw [arAdd, if_pos rfl, List.flatMap_cons]
      by_cases hg : gid ∈ gs
      · rw [if_pos hg]
        exact hflat
      · rw [if_neg hg, List.nodup_append]
        refine ⟨?_, hrest, ?_⟩
        · rw [List.nodup_append]
          refine ⟨hgs, List.nodup_singleton gid, ?_⟩
          intro a ha hb
          rw [List.mem_singleton] at hb
          subst hb
          exact hg ha
        · intro a ha hb
          rcases List.mem_append.mp ha with h1 | h1
          · exact hdisj h1 hb
          · rw [List.mem_singleton] at h1
            subst h1
            obtain ⟨p2, hp2, hgp2⟩ := List.mem_flatMap.mp hb
            have hp2k : p2.1 ≠ k := by
              intro he
              exact hkn.1 (he ▸ (List.mem_map.mpr ⟨p2, hp2, rfl⟩))
            exact hfresh p2 (List.mem_cons_of_mem _ hp2) hp2k hgp2
    · rw [arAdd, if_neg hk, List.flatMap_cons, List.nodup_append]
      refine ⟨hgs, ih hkn.2 hrest (fun p2 hp2 => hfresh p2 (List.mem_cons_of_mem _ hp2)), ?_⟩
      intro a ha hb
      obtain ⟨p2, hp2, hgp2⟩ := List.mem_flatMap.mp hb
      rcases arAdd_gids_sub r cid gid a (List.mem_flatMap.mpr ⟨p2, hp2, hgp2⟩) with h1 | h1
      · exact hdisj ha h1
      · subst h1
        exact hfresh (k, gs) (List.mem_cons_self _ _) hk ha

/-- Membership relation preservation through `arAdd`: pairs. -/
lemma arAdd_rel (P : JVal → JVal → Prop) (ar : AllResults) (cid gid : JVal)
    (hrel : ∀ p ∈ ar, ∀ g ∈ p.2, P p.1 g) (hnew : P cid gid) :
    ∀ p ∈ arAdd ar cid gid, ∀ g ∈ p.2, P p.1 g := by
  induction ar with
  | nil =>
    intro p hp g hg
    rw [arAdd] at hp
    rw [List.mem_singleton.mp hp] at hg ⊢
    rw [List.mem_singleton.mp hg]
    exact hnew
  | cons q r ih =>
    obtain ⟨k, gs⟩ := q
    intro p hp g hg
    by_cases hk : k = cid
    · subst hk
      rw [arAdd, if_pos rfl] at hp
      rcases List.mem_cons.mp hp with rfl | hp'
      · simp only at hg
        by_cases hgd : gid ∈ gs
        · rw [if_pos hgd] at hg
          exact hrel (k, gs) (List.mem_cons_self _ _) g hg
        · rw [if_neg hgd] at hg
          rcases List.mem_append.mp hg with h1 | h1
          · exact hrel (k, gs) (List.mem_cons_self _ _) g h1
          · rw [List.mem_singleton.mp h1]
            exact hnew
      · exact hrel p (List.mem_cons_of_mem _ hp') g hg
    · rw [arAdd, if_neg hk] at hp
      rcases List.mem_cons.mp hp with rfl | hp'
      · exact hrel (k, gs) (List.mem_cons_self _ _) g hg
      · exact ih (fun q hq => hrel q (List.mem_cons_of_mem _ hq)) p hp' g hg

/-- Membership relation preservation through `arAdd`: keys. -/
lemma arAdd_keyrel (Q : JVal → Prop) (ar : AllResults) (cid gid : JVal)
    (hrel : ∀ p ∈ ar, Q p.1) (hnew : Q cid) :
    ∀ p ∈ arAdd ar cid gid, Q p.1 := by
  intro p hp
  have hmem : p.1 ∈ (arAdd ar cid gid).map Prod.fst := List.mem_map.mpr ⟨p, hp, rfl⟩
  rw [arAdd_keys] at hmem
  by_cases hm : cid ∈ ar.map Prod.fst
  · rw [if_pos hm] at hmem
    obtain ⟨q, hq, hq1⟩ := List.mem_map.mp hmem
    exact hq1 ▸ hrel q hq
  · rw [if_neg hm] at hmem
    rcases List.mem_append.mp hmem with h1 | h1
    · obtain ⟨q, hq, hq1⟩ := List.mem_map.mp h1
      exact hq1 ▸ hrel q hq
    · rw [List.mem_singleton.mp h1]
      exact hnew

/-- One provenance-respecting update preserves the invariant. -/
lemma arInv_arAdd (db : MongoDB) (ar : AllResults) (cid gid : JVal)
    (hgn : (genIds db).Nodup) (hinv : arInv db ar)
    (hprov : ∃ d ∈ db.genomic,
      lookupA d "CLINICAL_ID" = some cid ∧ lookupA d "_id" = some gid) :
    arInv db (arAdd ar cid gid) := by
  obtain ⟨hkn, hflat, hrel⟩ := hinv
  obtain ⟨d0, hd0, hd0c, hd0i⟩ := hprov
  have hfresh : ∀ p ∈ ar, p.1 ≠ cid → gid ∉ p.2 := by
    intro p hp hne hg
    obtain ⟨-, hrel2⟩ := hrel p hp
    obtain ⟨d2, hd2, hd2c, hd2i⟩ := hrel2 gid hg
    have : d2 = d0 := filterMap_nodup_inj _ db.genomic hgn d2 hd2 d0 hd0 gid hd2i hd0i
    rw [this, hd0c] at hd2c
    exact hne (Option.some.inj hd2c).symm
  refine ⟨arAdd_keys_nodup ar cid gid hkn, arAdd_flat_nodup ar cid gid hkn hflat hfresh, ?_⟩
  intro p hp
  constructor
  · exact arAdd_keyrel (fun k => ∃ d ∈ db.genomic, lookupA d "CLINICAL_ID" = some k)
      ar cid gid (fun q hq => (hrel q hq).1) ⟨d0, hd0, hd0c⟩ p hp
  · exact arAdd_rel (fun k g => ∃ d ∈ db.genomic,
        lookupA d "CLINICAL_ID" = some k ∧ lookupA d "_id" = some g)
      ar cid gid (fun q hq => (hrel q hq).2) ⟨d0, hd0, hd0c, hd0i⟩ p hp

/-- Folding provenance-respecting pairs preserves the invariant. -/
lemma arInv_foldl (db : MongoDB) (pairs : List (JVal × JVal)) (ar : AllResults)
    (hgn : (genIds db).Nodup) (hinv : arInv db ar)
    (hprov : ∀ p ∈ pairs, ∃ d ∈ db.genomic,
      lookupA d "CLINICAL_ID" = some p.1 ∧ lookupA d "_id" = some p.2) :
    arInv db (pairs.foldl (fun a p => arAdd a p.1 p.2) ar) := by
  induction pairs generalizing ar with
  | nil => exact hinv
  | cons p rest ih =>
    rw [List.foldl_cons]
    exact ih (arAdd ar p.1 p.2)
      (arInv_arAdd db ar p.1 p.2 hgn hinv (hprov p (List.mem_cons_self _ _)))
      (fun q hq => hprov q (List.mem_cons_of_mem _ hq))

lemma MongoDB.coll_genomic (db : MongoDB) : db.coll "genomic" = db.genomic := by
  rw [MongoDB.coll, if_neg (by decide), if_pos rfl]

/-- With the loaded configuration only the genomic collection has a join
field, and it is `CLINICAL_ID`. -/
lemma lookupA_theJoin (coll jf : String)
    (h : lookupA theTransformer.join_fields coll = some jf) :
    coll = "genomic" ∧ jf = "CLINICAL_ID" := by
  have h' : lookupA [("genomic", "CLINICAL_ID")] coll = some jf := h
  by_cases hc : "genomic" = coll
  · rw [lookupA, if_pos hc] at h'
    exact ⟨hc.symm, (Option.some.inj h').symm⟩
  · rw [lookupA, if_neg hc, lookupA] at h'
    exact absurd h' (by simp)

/-- The pairs a genomic fragment run folds into the accumulator all come
from stored genomic documents. -/
lemma runGenFrag_arInv (db : MongoDB) (fr : Frag) (cids : List JVal)
    (ar : AllResults) (q : List Frag) (ar' : AllResults) (cids' : List JVal)
    (h : runGenFrag db "genomic" "CLINICAL_ID" fr cids ar = .ok (q, ar', cids'))
    (hgn : (genIds db).Nodup) (hinv : arInv db ar) : arInv db ar' := by
  rw [runGenFrag] at h
  simp only [Bind.bind, Except.bind] at h
  split at h
  · exact absurd h (by simp)
  · next pairs hpairs =>
    simp only [Except.ok.injEq, Prod.mk.injEq] at h
    rw [← h.2.1]
    refine arInv_foldl db pairs ar hgn hinv ?_
    intro p hp
    obtain ⟨d, hd, hfd⟩ := mapE_ok_mem _ _ pairs hpairs p hp
    have hdg : d ∈ db.genomic := by
      rw [MongoDB.coll_genomic] at hd
      exact findAnd_subset db.genomic _ hd
    refine ⟨d, hdg, ?_⟩
    split at hfd
    · exact absurd hfd (by simp)
    · next cid hcid =>
      split at hfd
      · exact absurd hfd (by simp)
      · next gid hgid =>
        obtain rfl := Except.ok.inj hfd
        exact ⟨ofOption_ok _ _ _ hcid, ofOption_ok _ _ _ hgid⟩

/-- The fragment loop preserves the accumulator invariant. -/
lemma runFrags_arInv (db : MongoDB) (frs : List Frag) (cids : List JVal)
    (ar : AllResults) (calls : List (String × List Frag)) (snaps : List Snap)
    (out : GenOut)
    (h : runFrags db "genomic" "CLINICAL_ID" frs cids ar calls snaps = .ok out)
    (hgn : (genIds db).Nodup) (hinv : arInv db ar) : arInv db out.arOf := by
  induction frs generalizing cids ar calls snaps with
  | nil =>
    rw [runFrags] at h
    obtain rfl := Except.ok.inj h
    exact hinv
  | cons fr rest ih =>
    rw [runFrags] at h
    simp only [Bind.bind, Except.bind] at h
    split at h
    · exact absurd h (by simp)
    · next tr3 htr =>
      obtain ⟨q, ar1, cids1⟩ := tr3
      have hinv1 := runGenFrag_arInv db fr cids ar q ar1 cids1 htr hgn hinv
      simp only at h
      split at h
      · obtain rfl := Except.ok.inj h
        exact hinv1
      · exact ih cids1 ar1 _ _ h hinv1

/-- The collection loop preserves the accumulator invariant. -/
lemma runColls_arInv (db : MongoDB) (entries : List (String × List Frag))
    (cids : List JVal) (ar : AllResults) (calls : List (String × List Frag))
    (snaps : List Snap) (out : GenOut)
    (h : runColls db theTransformer entries cids ar calls snaps = .ok out)
    (hgn : (genIds db).Nodup) (hinv : arInv db ar) : arInv db out.arOf := by
  induction entries generalizing cids ar calls snaps with
  | nil =>
    rw [runColls] at h
    obtain rfl := Except.ok.inj h
    exact hinv
  | cons e rest ih =>
    obtain ⟨coll, frs⟩ := e
    rw [runColls] at h
    split at h
    · exact ih _ _ _ _ h hinv
    · simp only [Bind.bind, Except.bind] at h
      split at h
      · exact absurd h (by simp)
      · next jf hjf =>
        obtain ⟨rfl, rfl⟩ := lookupA_theJoin coll jf (ofOption_ok _ _ _ hjf)
        split at h
        · exact absurd h (by simp)
        · next gout hgout =>
          have hinv1 := runFrags_arInv db frs cids ar calls snaps gout hgout hgn hinv
          cases gout with
          | stop calls' snaps' ar' =>
            simp only at h
            obtain rfl := Except.ok.inj h
            exact hinv1
          | next cids' ar' calls' snaps' =>
            simp only at h
            exact ih _ _ _ _ h hinv1

lemma filter_filterMap_sublist {α β : Type} (p : α → Bool) (f : α → Option β)
    (l : List α) : List.Sublist ((l.filter p).filterMap f) (l.filterMap f) := by
  induction l with
  | nil => exact List.Sublist.refl []
  | cons a r ih =>
    rw [List.filter_cons]
    by_cases hp : p a
    · rw [if_pos hp, List.filterMap_cons, List.filterMap_cons]
      cases f a with
      | none => exact ih
      | some b => exact List.Sublist.cons₂ b ih
    · rw [if_neg hp, List.filterMap_cons]
      cases f a with
      | none => exact ih
      | some b => exact List.Sublist.cons b ih

/-- What one hydration call does: the requested ids are exactly the
uncached accumulator ids, every requested id is fetched and written exactly
once, no write touches an existing key, and the cache is extended by
appending the writes. -/
lemma hydrate_spec (db : MongoDB) (cache : Cache) (ar : AllResults)
    (nc ng : List JVal) (writes : List (JVal × Doc)) (cache2 : Cache)
    (hdb : wfdb db = true) (hinv : arInv db ar)
    (h : hydrate db cache ar = .ok (nc, ng, writes, cache2)) :
    (writes.map Prod.fst).Nodup ∧
    (∀ k ∈ writes.map Prod.fst, hasKeyA cache k = false) ∧
    (∀ x ∈ nc ++ ng, x ∈ writes.map Prod.fst ∧ hasKeyA cache x = false) ∧
    (∀ x ∈ writes.map Prod.fst, x ∈ nc ++ ng) ∧
    (nc ++ ng).Nodup ∧
    cache2 = cache ++ writes := by
  obtain ⟨hkn, hflat, hrel⟩ := hinv
  rw [hydrate] at h
  simp only [Bind.bind, Except.bind] at h
  split at h
  · exact absurd h (by simp)
  · next ws hws =>
    simp only [Except.ok.injEq, Prod.mk.injEq] at h
    obtain ⟨rfl, rfl, rfl, rfl⟩ := h
    obtain ⟨hkeys, -⟩ := hydrateWrites_spec _ ws hws
    rw [List.filterMap_append] at hkeys
    have hncar : ∀ x ∈ (ar.map Prod.fst).filter (fun cid => !hasKeyA cache cid),
        x ∈ ar.map Prod.fst ∧ hasKeyA cache x = false := by
      intro x hx
      obtain ⟨h1, h2⟩ := List.mem_filter.mp hx
      rw [Bool.not_eq_true'] at h2
      exact ⟨h1, h2⟩
    have hngar : ∀ x ∈ ar.flatMap (fun p => p.2.filter fun gid => !hasKeyA cache gid),
        (x ∈ ar.flatMap fun p => p.2) ∧ hasKeyA cache x = false := by
      intro x hx
      obtain ⟨p, hp, hxp⟩ := List.mem_flatMap.mp hx
      obtain ⟨h1, h2⟩ := List.mem_filter.mp hxp
      rw [Bool.not_eq_true'] at h2
      exact ⟨List.mem_flatMap.mpr ⟨p, hp, h1⟩, h2⟩
    have hncClin : ∀ x ∈ (ar.map Prod.fst).filter (fun cid => !hasKeyA cache cid),
        x ∈ clinIds db := by
      intro x hx
      obtain ⟨h1, -⟩ := hncar x hx
      obtain ⟨p, hp, hpx⟩ := List.mem_map.mp h1
      obtain ⟨⟨d, hd, hdc⟩, -⟩ := hrel p hp
      exact wfdb_integrity db hdb d hd x (hpx ▸ hdc)
    have hngGen : ∀ x ∈ ar.flatMap (fun p => p.2.filter fun gid => !hasKeyA cache gid),
        ∃ d ∈ db.genomic, lookupA d "_id" = some x := by
      intro x hx
      obtain ⟨p, hp, hxp⟩ := List.mem_flatMap.mp hx
      obtain ⟨h1, -⟩ := List.mem_filter.mp hxp
      obtain ⟨-, hrel2⟩ := hrel p hp
      obtain ⟨d, hd, -, hdi⟩ := hrel2 x h1
      exact ⟨d, hd, hdi⟩
    have hCmem : ∀ x, x ∈ (findByIds db.clinical
          ((ar.map Prod.fst).filter fun cid => !hasKeyA cache cid)).filterMap
            (fun d => lookupA d "_id") ↔
        x ∈ (ar.map Prod.fst).filter (fun cid => !hasKeyA cache cid) ∧ x ∈ clinIds db := by
      intro x
      constructor
      · intro hx
        obtain ⟨d, hd, hdi⟩ := List.mem_filterMap.mp hx
        refine ⟨findByIds_id_in _ _ d x hd hdi, ?_⟩
        exact List.mem_filterMap.mpr ⟨d, findByIds_subset _ _ hd, hdi⟩
      · intro ⟨hx1, hx2⟩
        obtain ⟨d, hd, hdi⟩ := List.mem_filterMap.mp hx2
        exact List.mem_filterMap.mpr ⟨d, mem_findByIds _ _ d x hd hdi hx1, hdi⟩
    have hGmem : ∀ x, x ∈ (findByIds db.genomic
          (ar.flatMap fun p => p.2.filter fun gid => !hasKeyA cache gid)).filterMap
            (fun d => lookupA d "_id") ↔
        x ∈ (ar.flatMap fun p => p.2.filter fun gid => !hasKeyA cache gid) ∧ x ∈ genIds db := by
      intro x
      constructor
      · intro hx
        obtain ⟨d, hd, hdi⟩ := List.mem_filterMap.mp hx
        refine ⟨findByIds_id_in _ _ d x hd hdi, ?_⟩
        exact List.mem_filterMap.mpr ⟨d, findByIds_subset _ _ hd, hdi⟩
      · intro ⟨hx1, hx2⟩
        obtain ⟨d, hd, hdi⟩ := hngGen x hx1
        exact List.mem_filterMap.mpr ⟨d, mem_findByIds _ _ d x hd hdi hx1, hdi⟩
    have hCnodup : ((findByIds db.clinical
        ((ar.map Prod.fst).filter fun cid => !hasKeyA cache cid)).filterMap
          (fun d => lookupA d "_id")).Nodup := by
      rw [findByIds]
      exact (wfdb_clin_nodup db hdb).sublist (filter_filterMap_sublist _ _ db.clinical)
    have hGnodup : ((findByIds db.genomic
        (ar.flatMap fun p => p.2.filter fun gid => !hasKeyA cache gid)).filterMap
          (fun d => lookupA d "_id")).Nodup := by
      rw [findByIds]
      exact (wfdb_gen_nodup db hdb).sublist (filter_filterMap_sublist _ _ db.genomic)
    have hkeysNodup : (ws.map Prod.fst).Nodup := by
      rw [hkeys, List.nodup_append]
      refine ⟨hCnodup, hGnodup, ?_⟩
      intro a ha hb
      exact wfdb_disjoint db hdb a ((hCmem a).mp ha).2 ((hGmem a).mp hb).2
    refine ⟨hkeysNodup, ?_, ?_, ?_, ?_, ?_⟩
    · intro k hk
      rw [hkeys] at hk
      rcases List.mem_append.mp hk with h1 | h1
      · exact (hncar k ((hCmem k).mp h1).1).2
      · exact (hngar k ((hGmem k).mp h1).1).2
    · intro x hx
      rcases List.mem_append.mp hx with h1 | h1
      · refine ⟨?_, (hncar x h1).2⟩
        rw [hkeys]
        exact List.mem_append.mpr (Or.inl ((hCmem x).mpr ⟨h1, hncClin x h1⟩))
      · refine ⟨?_, (hngar x h1).2⟩
        rw [hkeys]
        refine List.mem_append.mpr (Or.inr ((hGmem x).mpr ⟨h1, ?_⟩))
        obtain ⟨d, hd, hdi⟩ := hngGen x h1
        exact List.mem_filterMap.mpr ⟨d, hd, hdi⟩
    · intro x hx
      rw [hkeys] at hx
      rcases List.mem_append.mp hx with h1 | h1
      · exact List.mem_append.mpr (Or.inl ((hCmem x).mp h1).1)
      · exact List.mem_append.mpr (Or.inr ((hGmem x).mp h1).1)
    · rw [List.nodup_append]
      refine ⟨hkn.filter _, ?_, ?_⟩
      · rw [← flatMap_filter_comm]
        exact hflat.filter _
      · intro a ha hb
        refine wfdb_disjoint db hdb a (hncClin a ha) ?_
        obtain ⟨d, hd, hdi⟩ := hngGen a hb
        exact List.mem_filterMap.mpr ⟨d, hd, hdi⟩
    · exact (foldl_setA_fresh ws cache hkeysNodup (fun k hk => by
        rw [hkeys] at hk
        rcases List.mem_append.mp hk with h1 | h1
        · exact (hncar k ((hCmem k).mp h1).1).2
        · exact (hngar k ((hGmem k).mp h1).1).2)).symm.symm

/-- Cache behaviour of the node loop: the cache only grows by appending
the hydration writes, every requested id was uncached on entry, requests
and write keys coincide, and no id is requested or written twice. -/
lemma runNodes_cache_spec (db : MongoDB) (qs : List MCQuery) (cids : List JVal)
    (ar : AllResults) (cache : Cache) (recs : List NodeRec) (cacheF : Cache)
    (hdb : wfdb db = true) (hinv : arInv db ar)
    (h : runNodes db theTransformer qs cids ar cache = .ok (recs, cacheF)) :
    cacheF = cache ++ recs.flatMap (·.writes) ∧
    (recs.flatMap reqOf).Nodup ∧
    (∀ x ∈ recs.flatMap reqOf, hasKeyA cache x = false) ∧
    ((recs.flatMap (·.writes)).map Prod.fst).Nodup ∧
    (∀ x ∈ recs.flatMap reqOf, x ∈ (recs.flatMap (·.writes)).map Prod.fst) ∧
    (∀ x ∈ (recs.flatMap (·.writes)).map Prod.fst, x ∈ recs.flatMap reqOf) := by
  induction qs generalizing cids ar cache recs cacheF with
  | nil =>
    rw [runNodes] at h
    obtain ⟨h1, h2⟩ := Prod.mk.inj (Except.ok.inj h)
    rw [← h1, ← h2]
    refine ⟨by rw [List.flatMap_nil, List.append_nil], List.Pairwise.nil, ?_, ?_, ?_, ?_⟩
    · intro x hx; exact absurd hx (by rw [List.flatMap_nil]; exact List.not_mem_nil x)
    · rw [List.flatMap_nil, List.map_nil]; exact List.Pairwise.nil
    · intro x hx; exact absurd hx (by rw [List.flatMap_nil]; exact List.not_mem_nil x)
    · intro x hx; exact absurd hx (by rw [List.flatMap_nil, List.map_nil]; exact List.not_mem_nil x)
  | cons q rest ih =>
    obtain ⟨cc, cr, -, hcase⟩ := runNodes_cons_inv db theTransformer q rest cids ar cache recs cacheF h
    have hsingle : ∀ (rec : NodeRec), rec.hydration = none → rec.writes = [] →
        cache = cache ++ [rec].flatMap (·.writes) ∧
        ([rec].flatMap reqOf).Nodup ∧
        (∀ x ∈ [rec].flatMap reqOf, hasKeyA cache x = false) ∧
        (([rec].flatMap (·.writes)).map Prod.fst).Nodup ∧
        (∀ x ∈ [rec].flatMap reqOf, x ∈ ([rec].flatMap (·.writes)).map Prod.fst) ∧
        (∀ x ∈ ([rec].flatMap (·.writes)).map Prod.fst, x ∈ [rec].flatMap reqOf) := by
      intro rec hh hw
      have hreq : [rec].flatMap reqOf = [] := by
        rw [List.flatMap_cons, List.flatMap_nil, List.append_nil, reqOf, hh]
      have hwr : [rec].flatMap (fun r => r.writes) = [] := by
        rw [List.flatMap_cons, List.flatMap_nil, List.append_nil, hw]
      rw [hreq, hwr]
      refine ⟨by rw [List.append_nil], List.Pairwise.nil, ?_, ?_, ?_, ?_⟩
      · intro x hx; exact absurd hx (List.not_mem_nil x)
      · rw [List.map_nil]; exact List.Pairwise.nil
      · intro x hx; exact absurd hx (List.not_mem_nil x)
      · intro x hx; exact absurd hx (by rw [List.map_nil] at hx ⊢; exact List.not_mem_nil x)
    rcases hcase with ⟨-, hrecs, hcf⟩ | ⟨-, hrecs, hcf⟩ |
      ⟨nI, ca, sn, ar', -, -, -, hrecs, hcf⟩ |
      ⟨nI, cids2, ar2, ca, sn, nc, ng, w, c2, ems, recs', -, -, hcoll, hhyd, -, hrest, hrecs⟩
    · subst hrecs; subst hcf; exact hsingle _ rfl rfl
    · subst hrecs; subst hcf; exact hsingle _ rfl rfl
    · subst hrecs; subst hcf; exact hsingle _ rfl rfl
    · subst hrecs
      have hinv2 : arInv db ar2 := runColls_arInv db q _ ar [] _ _ hcoll (wfdb_gen_nodup db hdb) hinv
      obtain ⟨hwn, hwfresh, hreqw, hwreq, hreqn, hc2⟩ :=
        hydrate_spec db cache ar2 nc ng w c2 hdb hinv2 hhyd
      obtain ⟨ih1, ih2, ih3, ih4, ih5, ih6⟩ := ih cids2 ar2 c2 recs' cacheF hinv2 hrest
      have hhead : (⟨cc, some nI, ca, sn, some (nc, ng), w, ems⟩ : NodeRec).writes = w := rfl
      have hheadr : reqOf ⟨cc, some nI, ca, sn, some (nc, ng), w, ems⟩ = nc ++ ng := rfl
      have hWcons : ((⟨cc, some nI, ca, sn, some (nc, ng), w, ems⟩ : NodeRec) :: recs').flatMap
          (fun r => r.writes) = w ++ recs'.flatMap (fun r => r.writes) := by
        rw [List.flatMap_cons, hhead]
      have hRcons : ((⟨cc, some nI, ca, sn, some (nc, ng), w, ems⟩ : NodeRec) :: recs').flatMap
          reqOf = (nc ++ ng) ++ recs'.flatMap reqOf := by
        rw [List.flatMap_cons, hheadr]
      have hreq_c2 : ∀ x ∈ nc ++ ng, hasKeyA c2 x = true := by
        intro x hx
        rw [hc2, hasKeyA_append, hasKeyA_of_mem_keys w x (hreqw x hx).1, Bool.or_true]
      have hreq'_cache : ∀ x ∈ recs'.flatMap reqOf, hasKeyA cache x = false := by
        intro x hx
        have h2 := ih3 x hx
        cases hck : hasKeyA cache x with
        | false => rfl
        | true =>
          have : hasKeyA c2 x = true := by
            rw [hc2, hasKeyA_append, hck, Bool.true_or]
          rw [this] at h2
          exact absurd h2 (by simp)
      refine ⟨?_, ?_, ?_, ?_, ?_, ?_⟩
      · rw [hWcons, ih1, hc2, List.append_assoc]
      · rw [hRcons, List.nodup_append]
        refine ⟨hreqn, ih2, ?_⟩
        intro a ha hb
        have h1 := hreq_c2 a ha
        have h2 := ih3 a hb
        rw [h1] at h2
        exact absurd h2 (by simp)
      · intro x hx
        rw [hRcons] at hx
        rcases List.mem_append.mp hx with h1 | h1
        · exact (hreqw x h1).2
        · exact hreq'_cache x h1
      · rw [hWcons, List.map_append, List.nodup_append]
        refine ⟨hwn, ih4, ?_⟩
        intro a ha hb
        have h1 : hasKeyA c2 a = true := hreq_c2 a (hwreq a ha)
        have h2 := ih3 a (ih6 a hb)
        rw [h1] at h2
        exact absurd h2 (by simp)
      · intro x hx
        rw [hRcons] at hx
        rw [hWcons, List.map_append]
        rcases List.mem_append.mp hx with h1 | h1
        · exact List.mem_append.mpr (Or.inl (hreqw x h1).1)
        · exact List.mem_append.mpr (Or.inr (ih5 x h1))
      · intro x hx
        rw [hWcons, List.map_append] at hx
        rw [hRcons]
        rcases List.mem_append.mp hx with h1 | h1
        · exact List.mem_append.mpr (Or.inl (hwreq x h1))
        · exact List.mem_append.mpr (Or.inr (ih6 x h1))

/-- Closed instance of C8's amended statement at a concrete id list. -/
theorem C8_amended_witness :
    translateAndInject 100 brafClause (some [.n 3]) = .ok [[brafInjected [.n 3]]] :=
  C8_amended [.n 3]

lemma sysF_eval :
    runSched dbA theTransformer (initSys [[qnA1], [qnA1]]) [0, 1, 0, 1] = .ok sysF := rfl

/-- On a well-formed database a key determines the stored body. -/
lemma writeOK_unique (db : MongoDB) (hdb : wfdb db = true) (k : JVal) (d1 d2 : Doc)
    (h1 : writeOK db (k, d1)) (h2 : writeOK db (k, d2)) : d1 = d2 := by
  obtain ⟨hm1, hi1⟩ := h1
  obtain ⟨hm2, hi2⟩ := h2
  refine filterMap_nodup_inj (fun d => lookupA d "_id") (db.clinical ++ db.genomic)
    ?_ d1 hm1 d2 hm2 k hi1 hi2
  rw [List.filterMap_append]
  rw [List.nodup_append]
  refine ⟨wfdb_clin_nodup db hdb, wfdb_gen_nodup db hdb, ?_⟩
  intro a ha hb
  exact wfdb_disjoint db hdb a ha hb

/-- The documents a hydration fetched are sound writes. -/
lemma hydrate_pend_writeOK (db : MongoDB) (cache : Cache) (ar : AllResults)
    (nc ng : List JVal) (ws : List (JVal × Doc)) (c2 : Cache)
    (h : hydrate db cache ar = .ok (nc, ng, ws, c2)) :
    ∀ kd ∈ ws, writeOK db kd := by
  rw [hydrate] at h
  simp only [Bind.bind, Except.bind] at h
  split at h
  · exact absurd h (by simp)
  · next ws0 hws =>
    simp only [Except.ok.injEq, Prod.mk.injEq] at h
    obtain ⟨-, -, rfl, -⟩ := h
    intro kd hkd
    obtain ⟨d, hd, hfd⟩ := mapE_ok_mem _ _ ws0 hws kd hkd
    have hdm : d ∈ db.clinical ++ db.genomic := by
      rcases List.mem_append.mp hd with h1 | h1
      · exact List.mem_append.mpr (Or.inl (findByIds_subset db.clinical _ h1))
      · exact List.mem_append.mpr (Or.inr (findByIds_subset db.genomic _ h1))
    split at hfd
    · exact absurd hfd (by simp)
    · next i hi =>
      obtain rfl := Except.ok.inj hfd
      exact ⟨hdm, ofOption_ok _ _ _ hi⟩

lemma hasKeyA_setA_of {κ α : Type} [DecidableEq κ] (c : List (κ × α)) (a k : κ) (v : α)
    (h : hasKeyA c k = true) : hasKeyA (setA c a v) k = true := by
  by_cases hak : a = k
  · subst hak
    rw [hasKeyA, setA_lookup_self]
    rfl
  · rw [hasKeyA, setA_lookup_other c a k v hak, ← hasKeyA]
    exact h

lemma hasKeyA_foldl_setA_of (ws : List (JVal × Doc)) (c : Cache) (k : JVal)
    (h : hasKeyA c k = true) :
    hasKeyA (ws.foldl (fun c2 w => setA c2 w.1 w.2) c) k = true := by
  induction ws generalizing c with
  | nil => exact h
  | cons w r ih => exact ih (setA c w.1 w.2) (hasKeyA_setA_of c w.1 k w.2 h)

lemma hasKeyA_foldl_setA_mem (ws : List (JVal × Doc)) (c : Cache) (k : JVal)
    (h : k ∈ ws.map Prod.fst) :
    hasKeyA (ws.foldl (fun c2 w => setA c2 w.1 w.2) c) k = true := by
  induction ws generalizing c with
  | nil => exact absurd h (List.not_mem_nil k)
  | cons w r ih =>
    rcases List.mem_cons.mp h with h1 | h1
    · refine hasKeyA_foldl_setA_of r (setA c w.1 w.2) k ?_
      rw [h1, hasKeyA, setA_lookup_self]
      rfl
    · exact ih (setA c w.1 w.2) h1

/-- A property of every pending write and of every existing entry holds of
every entry after the write-back. -/
lemma lookupA_foldl_setA_prov (P : JVal × Doc → Prop) (ws : List (JVal × Doc))
    (c : Cache) (hw : ∀ kd ∈ ws, P kd) (hc : ∀ k d, lookupA c k = some d → P (k, d)) :
    ∀ k d, lookupA (ws.foldl (fun c2 w => setA c2 w.1 w.2) c) k = some d → P (k, d) := by
  induction ws generalizing c with
  | nil => exact hc
  | cons w r ih =>
    refine ih (setA c w.1 w.2) (fun kd hkd => hw kd (List.mem_cons_of_mem w hkd)) ?_
    intro k d hkd
    by_cases hk : w.1 = k
    · subst hk
      rw [setA_lookup_self] at hkd
      obtain rfl := Option.some.inj hkd
      exact hw w (List.mem_cons_self w r)
    · rw [setA_lookup_other c w.1 k w.2 hk] at hkd
      exact hc k d hkd

/-- Inversion of a worker step at a node boundary. -/
lemma stepWorker_ready_inv (db : MongoDB) (tr : Transformer) (cache : Cache)
    (q : MCQuery) (rest : List MCQuery) (cids : List JVal) (ar : AllResults)
    (out : WPhase × Option NodeRec × Cache)
    (h : stepWorker db tr cache (.ready (q :: rest) cids ar) = .ok out) :
    ∃ clinCall clinRes, execute_clinical_query db tr q = .ok (clinCall, clinRes) ∧
    ((clinRes = none ∧ out = (.stopped, some (stopRec clinCall none), cache)) ∨
     (clinRes = some [] ∧ out = (.stopped, some (stopRec clinCall (some [])), cache)) ∨
     (∃ newIds calls snaps ar',
        clinRes = some newIds ∧ newIds ≠ [] ∧
        runColls db tr q (newIds.foldl addUnique cids) ar []
            [.clinAdd (newIds.foldl addUnique cids)] = .ok (.stop calls snaps ar') ∧
        out = (.stopped, some (interStopRec clinCall newIds calls snaps), cache)) ∨
     (∃ newIds cids2 ar2 calls snaps nc ng ws c2,
        clinRes = some newIds ∧ newIds ≠ [] ∧
        runColls db tr q (newIds.foldl addUnique cids) ar []
            [.clinAdd (newIds.foldl addUnique cids)] = .ok (.next cids2 ar2 calls snaps) ∧
        hydrate db cache ar2 = .ok (nc, ng, ws, c2) ∧
        out = (.mid ⟨rest, cids2, ar2, clinCall, newIds, calls, snaps, nc, ng, ws⟩,
               none, cache))) := by
  rw [stepWorker] at h
  cases hexec : execute_clinical_query db tr q with
  | error e => rw [hexec] at h; simp [Bind.bind, Except.bind] at h
  | ok pr =>
    obtain ⟨clinCall, clinRes⟩ := pr
    rw [hexec] at h
    simp only [Bind.bind, Except.bind] at h
    refine ⟨clinCall, clinRes, rfl, ?_⟩
    split at h
    · left
      exact ⟨rfl, (Except.ok.inj h).symm⟩
    · next newIds =>
      split at h
      · next hnew =>
        right; left
        rw [List.isEmpty_iff] at hnew
        subst hnew
        exact ⟨rfl, (Except.ok.inj h).symm⟩
      · next hnew =>
        rw [List.isEmpty_iff] at hnew
        split at h
        · exact absurd h (by simp)
        · next v hcoll =>
          cases v with
          | stop calls snaps ar' =>
            right; right; left
            simp only at h
            exact ⟨newIds, calls, snaps, ar', rfl, hnew, hcoll, (Except.ok.inj h).symm⟩
          | next cids2 ar2 calls snaps =>
            right; right; right
            simp only [Bind.bind, Except.bind] at h
            split at h
            · exact absurd h (by simp)
            · next hr hhyd =>
              obtain ⟨nc, ng, ws, c2⟩ := hr
              simp only at h
              exact ⟨newIds, cids2, ar2, calls, snaps, nc, ng, ws, c2,
                rfl, hnew, hcoll, hhyd, (Except.ok.inj h).symm⟩

/-- Inversion of a worker step at the hydration suspension. -/
lemma stepWorker_mid_inv (db : MongoDB) (tr : Transformer) (cache : Cache)
    (m : MidSt) (out : WPhase × Option NodeRec × Cache)
    (h : stepWorker db tr cache (.mid m) = .ok out) :
    ∃ ems, emitAll (m.pend.foldl (fun c w => setA c w.1 w.2) cache) m.ar2 = .ok ems ∧
      out = (.ready m.rest m.cids2 m.ar2,
             some ⟨m.clinCall, some m.newIds, m.calls, m.snaps, some (m.nc, m.ng),
                   m.pend, ems⟩,
             m.pend.foldl (fun c w => setA c w.1 w.2) cache) := by
  rw [stepWorker] at h
  simp only [Bind.bind, Except.bind] at h
  split at h
  · exact absurd h (by simp)
  · next ems hem =>
    exact ⟨ems, hem, (Except.ok.inj h).symm⟩

/-- Cache-key growth transfers the per-worker invariant. -/
lemma wInv_mono (db : MongoDB) (cache cache' : Cache) (w : Worker)
    (hmono : ∀ k, hasKeyA cache k = true → hasKeyA cache' k = true)
    (h : wInv db cache w) : wInv db cache' w :=
  ⟨h.1, fun x hx => hmono x (h.2.1 x hx), h.2.2.1, h.2.2.2.1, h.2.2.2.2⟩

lemma triple_inj {A B C : Type} {a a2 : A} {b b2 : B} {c c2 : C}
    (h : (a, b, c) = (a2, b2, c2)) : a = a2 ∧ b = b2 ∧ c = c2 := by
  obtain ⟨h1, h23⟩ := Prod.mk.inj h
  obtain ⟨h2, h3⟩ := Prod.mk.inj h23
  exact ⟨h1, h2, h3⟩

/-- One worker step preserves cache soundness and its own invariant, and
only grows the cache's key set. -/
lemma stepWorker_inv (db : MongoDB) (cache : Cache) (w : Worker)
    (ph2 : WPhase) (mrec : Option NodeRec) (cache2 : Cache)
    (hdb : wfdb db = true) (hc : cacheOK db cache) (hw : wInv db cache w)
    (h : stepWorker db theTransformer cache w.phase = .ok (ph2, mrec, cache2)) :
    cacheOK db cache2 ∧
    wInv db cache2 ⟨ph2, w.recs ++ mrec.toList⟩ ∧
    (∀ k, hasKeyA cache k = true → hasKeyA cache2 k = true) := by
  obtain ⟨hw1, hw2, hw3, hw4, hw5⟩ := hw
  have hkeep : wInv db cache ⟨WPhase.stopped, w.recs ++ (none : Option NodeRec).toList⟩ := by
    have hnil : w.recs ++ (none : Option NodeRec).toList = w.recs := List.append_nil w.recs
    rw [wInv, hnil]
    exact ⟨hw1, hw2, hw3,
      fun ar har => absurd har (by rw [phaseAr]; simp),
      fun m hm => absurd hm (by simp)⟩
  have hstopped : ∀ rec0 : NodeRec, rec0.writes = [] → reqOf rec0 = [] →
      wInv db cache ⟨WPhase.stopped, w.recs ++ (some rec0).toList⟩ := by
    intro rec0 hwr hrq
    have hone : w.recs ++ (some rec0).toList = w.recs ++ [rec0] := rfl
    rw [wInv, hone]
    have hfm : (w.recs ++ [rec0]).flatMap reqOf = w.recs.flatMap reqOf := by
      rw [List.flatMap_append, List.flatMap_cons, List.flatMap_nil, hrq, List.append_nil,
        List.append_nil]
    refine ⟨?_, ?_, ?_, ?_, ?_⟩
    · intro rec hrec kd hkd
      rcases List.mem_append.mp hrec with h1 | h1
      · exact hw1 rec h1 kd hkd
      · rw [List.mem_singleton.mp h1, hwr] at hkd
        exact absurd hkd (List.not_mem_nil kd)
    · intro x hx
      rw [hfm] at hx
      exact hw2 x hx
    · rw [hfm]
      exact hw3
    · intro ar har
      exact absurd har (by rw [phaseAr]; simp)
    · intro m hm
      exact absurd hm (by simp)
  cases hph : w.phase with
  | stopped =>
    rw [hph, stepWorker] at h
    obtain ⟨rfl, rfl, rfl⟩ := triple_inj (Except.ok.inj h)
    exact ⟨hc, hkeep, fun k hk => hk⟩
  | mid m =>
    rw [hph] at h
    obtain ⟨ems, hem, hout⟩ := stepWorker_mid_inv db theTransformer cache m _ h
    obtain ⟨rfl, rfl, rfl⟩ := triple_inj hout
    obtain ⟨hm1, hm2, hm3, hm4⟩ := hw5 m hph
    have hmono : ∀ k, hasKeyA cache k = true →
        hasKeyA (m.pend.foldl (fun c w2 => setA c w2.1 w2.2) cache) k = true :=
      fun k hk => hasKeyA_foldl_setA_of m.pend cache k hk
    have hone : w.recs ++ (some (⟨m.clinCall, some m.newIds, m.calls, m.snaps,
        some (m.nc, m.ng), m.pend, ems⟩ : NodeRec)).toList =
        w.recs ++ [⟨m.clinCall, some m.newIds, m.calls, m.snaps,
          some (m.nc, m.ng), m.pend, ems⟩] := rfl
    have hfm : (w.recs ++ [(⟨m.clinCall, some m.newIds, m.calls, m.snaps,
        some (m.nc, m.ng), m.pend, ems⟩ : NodeRec)]).flatMap reqOf =
        w.recs.flatMap reqOf ++ (m.nc ++ m.ng) := by
      rw [List.flatMap_append, List.flatMap_cons, List.flatMap_nil, List.append_nil]
      rfl
    refine ⟨lookupA_foldl_setA_prov (writeOK db) m.pend cache hm2 hc, ?_, hmono⟩
    rw [wInv, hone]
    refine ⟨?_, ?_, ?_, ?_, ?_⟩
    · intro rec hrec kd hkd
      rcases List.mem_append.mp hrec with h1 | h1
      · exact hw1 rec h1 kd hkd
      · rw [List.mem_singleton.mp h1] at hkd
        exact hm2 kd hkd
    · intro x hx
      rw [hfm] at hx
      rcases List.mem_append.mp hx with h1 | h1
      · exact hmono x (hw2 x h1)
      · exact hasKeyA_foldl_setA_mem m.pend cache x (hm3 x h1)
    · rw [hfm]
      exact hm1
    · intro ar har
      rw [phaseAr] at har
      obtain rfl := Option.some.inj har
      exact hw4 m.ar2 (by rw [hph, phaseAr])
    · intro m2 hm2x
      exact absurd hm2x (by simp)
  | ready qs cids ar =>
    cases qs with
    | nil =>
      rw [hph, stepWorker] at h
      obtain ⟨rfl, rfl, rfl⟩ := triple_inj (Except.ok.inj h)
      exact ⟨hc, hkeep, fun k hk => hk⟩
    | cons q rest =>
      rw [hph] at h
      obtain ⟨cc, cr, -, hcase⟩ :=
        stepWorker_ready_inv db theTransformer cache q rest cids ar _ h
      rcases hcase with ⟨-, hout⟩ | ⟨-, hout⟩ |
        ⟨nI, ca, sn, ar2x, -, -, -, hout⟩ |
        ⟨nI, cids2, ar2, ca, sn, nc, ng, ws, c2, -, -, hcoll, hhyd, hout⟩
      · obtain ⟨rfl, rfl, rfl⟩ := triple_inj hout
        exact ⟨hc, hstopped _ rfl rfl, fun k hk => hk⟩
      · obtain ⟨rfl, rfl, rfl⟩ := triple_inj hout
        exact ⟨hc, hstopped _ rfl rfl, fun k hk => hk⟩
      · obtain ⟨rfl, rfl, rfl⟩ := triple_inj hout
        exact ⟨hc, hstopped _ rfl rfl, fun k hk => hk⟩
      · obtain ⟨rfl, rfl, hcc⟩ := triple_inj hout
        rw [hcc]
        have hinv2 : arInv db ar2 :=
          runColls_arInv db q _ ar [] _ _ hcoll (wfdb_gen_nodup db hdb)
            (hw4 ar (by rw [hph, phaseAr]))
        obtain ⟨hkn, hwfresh, hreqw, hwreq, hreqn, -⟩ :=
          hydrate_spec db cache ar2 nc ng ws c2 hdb hinv2 hhyd
        refine ⟨hc, ?_, fun k hk => hk⟩
        have hnil : w.recs ++ (none : Option NodeRec).toList = w.recs := List.append_nil w.recs
        rw [wInv, hnil]
        refine ⟨hw1, hw2, hw3, ?_, ?_⟩
        · intro ar0 har
          rw [phaseAr] at har
          obtain rfl := Option.some.inj har
          exact hinv2
        · intro m2 hm2
          obtain rfl := WPhase.mid.inj hm2
          refine ⟨?_, hydrate_pend_writeOK db cache ar2 nc ng ws c2 hhyd,
            fun x hx => (hreqw x hx).1, hwreq⟩
          rw [List.nodup_append]
          refine ⟨hw3, hreqn, ?_⟩
          intro a ha hb
          have h1 := hw2 a ha
          have h2 := (hreqw a hb).2
          rw [h1] at h2
          exact absurd h2 (by simp)

/-- One scheduled step preserves the pool invariant. -/
lemma stepSys_sysInv (db : MongoDB) (s : Sys) (i : Nat) (s2 : Sys)
    (hdb : wfdb db = true) (hs : sysInv db s)
    (h : stepSys db theTransformer s i = .ok s2) : sysInv db s2 := by
  obtain ⟨hcache, hworkers⟩ := hs
  rw [stepSys] at h
  split at h
  · obtain rfl := Except.ok.inj h
    exact ⟨hcache, hworkers⟩
  · next w hw =>
    simp only [Bind.bind, Except.bind] at h
    split at h
    · exact absurd h (by simp)
    · next t ht =>
      obtain ⟨ph2, mrec, cache2⟩ := t
      obtain rfl := Except.ok.inj h
      have hwmem : w ∈ s.workers := List.get?_mem hw
      obtain ⟨hc2, hwinv2, hmono⟩ :=
        stepWorker_inv db s.cache w ph2 mrec cache2 hdb hcache (hworkers w hwmem) ht
      refine ⟨hc2, ?_⟩
      intro w2 hw2
      rcases List.mem_or_eq_of_mem_set hw2 with h1 | h1
      · exact wInv_mono db s.cache cache2 w2 hmono (hworkers w2 h1)
      · rw [h1]
        exact hwinv2

/-- A whole schedule preserves the pool invariant. -/
lemma runSched_sysInv (db : MongoDB) (sched : List Nat) (s s2 : Sys)
    (hdb : wfdb db = true) (hs : sysInv db s)
    (h : runSched db theTransformer s sched = .ok s2) : sysInv db s2 := by
  induction sched generalizing s with
  | nil =>
    rw [runSched] at h
    obtain rfl := Except.ok.inj h
    exact hs
  | cons i rest ih =>
    rw [runSched] at h
    simp only [Bind.bind, Except.bind] at h
    split at h
    · exact absurd h (by simp)
    · next s1 h1 =>
      exact ih s1 (stepSys_sysInv db s i s1 hdb hs h1) h

/-- The fresh pool satisfies the invariant. -/
lemma sysInv_init (db : MongoDB) (paths : List (List MCQuery)) :
    sysInv db (initSys paths) := by
  refine ⟨?_, ?_⟩
  · intro k d hkd
    exact absurd hkd (by rw [initSys, lookupA]; simp)
  · intro w hw
    rw [initSys] at hw
    obtain ⟨qs, -, rfl⟩ := List.mem_map.mp hw
    refine ⟨?_, ?_, ?_, ?_, ?_⟩
    · intro rec hrec
      exact absurd hrec (List.not_mem_nil rec)
    · intro x hx
      rw [List.flatMap_nil] at hx
      exact absurd hx (List.not_mem_nil x)
    · rw [List.flatMap_nil]
      exact List.Pairwise.nil
    · intro ar har
      rw [phaseAr] at har
      obtain rfl := Option.some.inj har
      exact ⟨List.Pairwise.nil, List.Pairwise.nil, fun p hp => absurd hp (List.not_mem_nil p)⟩
    · intro m hm
      exact absurd hm (by simp)

/-- C9, amended.  Over every schedule of the worker pool on a well-formed
database: no single invocation requests the same id twice; every cache
write's body is the stored document carrying the written key as `_id`; and
any cache lookup after the run returns exactly the body every fetch of
that id obtained — in particular the first one.  (The at-most-once-fetch
and never-overwritten reading across workers fails: two workers can pass
the uncached check before either writes, fetching and writing the same id
twice — see the counterexample.) -/
theorem C9_cache_coherent_under_interleaving (db : MongoDB)
    (paths : List (List MCQuery)) (sched : List Nat) (s2 : Sys)
    (hdb : wfdb db = true)
    (h : runSched db theTransformer (initSys paths) sched = .ok s2) :
    (∀ w ∈ s2.workers, (w.recs.flatMap reqOf).Nodup) ∧
    (∀ kd ∈ sysWrites s2, kd.2 ∈ db.clinical ++ db.genomic ∧
        lookupA kd.2 "_id" = some kd.1) ∧
    (∀ k d1 d2, (k, d1) ∈ sysWrites s2 → lookupA s2.cache k = some d2 → d2 = d1) := by
  obtain ⟨hcache, hws⟩ :=
    runSched_sysInv db sched (initSys paths) s2 hdb (sysInv_init db paths) h
  have hA : ∀ kd ∈ sysWrites s2, writeOK db kd := by
    intro kd hkd
    rw [sysWrites] at hkd
    obtain ⟨w, hw, hkd2⟩ := List.mem_flatMap.mp hkd
    obtain ⟨rec, hrec, hkd3⟩ := List.mem_flatMap.mp hkd2
    exact (hws w hw).1 rec hrec kd hkd3
  refine ⟨fun w hw => (hws w hw).2.2.1, fun kd hkd => hA kd hkd, ?_⟩
  intro k d1 d2 h1 h2
  exact writeOK_unique db hdb k d2 d1 (hcache k d2 h2) (hA (k, d1) h1)

/-- C9 witness: the theorem applied to the racing two-worker schedule —
the first worker's request history is duplicate-free and the write of
patient 1's clinical document is sound. -/
theorem C9_cache_coherent_under_interleaving_witness :
    wfdb dbA = true ∧
    runSched dbA theTransformer (initSys [[qnA1], [qnA1]]) [0, 1, 0, 1] = .ok sysF ∧
    (wkF.recs.flatMap reqOf).Nodup ∧
    (cDocA1 ∈ dbA.clinical ++ dbA.genomic ∧ lookupA cDocA1 "_id" = some (.n 1)) :=
  ⟨rfl, sysF_eval,
   (C9_cache_coherent_under_interleaving dbA [[qnA1], [qnA1]] [0, 1, 0, 1] sysF
       rfl sysF_eval).1 wkF (List.mem_cons_self wkF [wkF]),
   (C9_cache_coherent_under_interleaving dbA [[qnA1], [qnA1]] [0, 1, 0, 1] sysF
       rfl sysF_eval).2.1 (.n 1, cDocA1) (by decide)⟩

/-- C9 counterexample: under the schedule that runs both workers up to
their hydration `gather` before either writes back, both workers fetch
and write patient 1's two documents — the id is requested from the
database twice and its cache entry is written twice (the second write
overwrites the first), refuting the at-most-once-fetch and
never-overwritten claim the sequential reading suggests. -/
theorem C9_counterexample :
    (runSched dbA theTransformer (initSys [[qnA1], [qnA1]]) [0, 1, 0, 1]).map
        (fun s => (sysReqs s, (sysWrites s).map Prod.fst)) =
      .ok ([.n 1, .n 101, .n 1, .n 101], [.n 1, .n 101, .n 1, .n 101]) ∧
    ¬ ([JVal.n 1, .n 101, .n 1, .n 101].Nodup) :=
  ⟨rfl, by decide⟩
end Matchengine
